import Mathlib

/-!
Shallow embedding of the bobbin-tlv repository (crates `cobs`, `leb128`,
`tlv`, `sctl`, and the unused `cobs/src/buffer.rs`) and proofs settling
the frozen claims about its specification.

Modelling conventions:
* A Rust byte (`u8`) is a `Nat`; where a claim needs the byte range we add
  the hypothesis `< 256`.  `usize` arithmetic is `Nat` arithmetic (the code
  never subtracts below zero on the paths modelled, except where noted).
* A `&mut [u8]` destination that is only ever written at the cursor and
  observed through `as_ref()` (= `buf[..pos]`) is represented by its
  capacity `cap` plus the written prefix `out : List Nat` (`pos = out.length`).
  Destinations that are back-patched (`cobs::encode` writes the group header
  at an earlier reserved slot) are kept as explicit `List Nat` updated with
  `List.set`.
* Fallible operations return `Except Error _`; streaming reads return
  `Except Error (Option _)` mirroring `Result<Option<_>, Error>`.  Rust
  panics (index out of bounds, `unimplemented!`, `assert!`) are modelled by
  a dedicated result constructor or by `Option` (`none` = panic), as noted
  at each definition.
* Shift/or arithmetic on `u32`/`i32` is `Nat`/`Int` arithmetic reduced
  `% 2 ^ 32`; an oversized shift amount produces `0` contributions the same
  way the release-mode masked result is discarded by the subsequent range
  check (the checks themselves never depend on the accumulated value).
-/

namespace Cobs

/-- `cobs::Error` (src/cobs/src/lib.rs). -/
inductive Error where
  | InvalidEncoding
  | SourceTooShort
  | DestTooShort
  | UnexpectedNull
deriving DecidableEq, Repr

/-- The loop of `cobs::encode` (src/cobs/src/lib.rs lines 18-58).
State: `dst` destination buffer, `cp` reserved header slot, `d` next write
position, `code` current group code; the list argument is the unread tail of
`src`.  Mirrors the Rust loop body line by line; the final header write is
the `[]` case. -/
def encodeLoop (dst : List Nat) (cp d code : Nat) : List Nat → Except Error (Nat × List Nat)
  | [] =>
    if dst.length ≤ cp then .error .DestTooShort
    else .ok (d, dst.set cp code)
  | b :: rest =>
    if b = 0 then
      if dst.length ≤ cp then .error .DestTooShort
      else encodeLoop (dst.set cp code) d (d + 1) 1 rest
    else
      if dst.length ≤ d then .error .DestTooShort
      else
        if code + 1 = 255 then
          if dst.length ≤ cp then .error .DestTooShort
          else encodeLoop ((dst.set d b).set cp 255) (d + 1) (d + 2) 1 rest
        else encodeLoop (dst.set d b) cp (d + 1) (code + 1) rest

/-- `cobs::encode` (src/cobs/src/lib.rs lines 18-58): returns the number of
`dst` bytes used and the updated destination. -/
def encode (src dst : List Nat) : Except Error (Nat × List Nat) :=
  encodeLoop dst 0 1 1 src

/-- The loop of `cobs::decode` (src/cobs/src/lib.rs lines 61-96).
The destination is write-once, strictly sequential, and only its written
prefix `out` is observable (the Rust code checks capacity once up front);
`out` accumulates the decoded bytes. -/
def decodeLoop (out : List Nat) : List Nat → Except Error (List Nat)
  | [] => .ok out
  | code :: rest =>
    if code = 0 then .error .UnexpectedNull
    else if rest.length + 1 < code ∧ code ≠ 1 then .error .SourceTooShort
    else
      let lits := rest.take (code - 1)
      if 0 ∈ lits then .error .UnexpectedNull
      else
        let rest' := rest.drop (code - 1)
        if code ≠ 255 ∧ rest' ≠ [] then decodeLoop (out ++ lits ++ [0]) rest'
        else decodeLoop (out ++ lits) rest'
  termination_by l => l.length
  decreasing_by
    all_goals simp only [List.length_cons, List.length_drop]
    all_goals omega

/-- `cobs::decode` (src/cobs/src/lib.rs lines 61-96): `dstCap` is the length
of the destination slice; on success the returned list is the written prefix
`dst[..d]` (its length is the Rust return value `d`). -/
def decode (src : List Nat) (dstCap : Nat) : Except Error (List Nat) :=
  if dstCap + 1 < src.length then .error .DestTooShort
  else decodeLoop [] src

/-- `cobs::Writer` (src/cobs/src/lib.rs lines 132-168): destination buffer and
cursor `pos`; `as_ref()` is `buf.take pos`. -/
structure Writer where
  buf : List Nat
  pos : Nat
deriving DecidableEq, Repr

/-- `Writer::encode_packet` (lines 159-167): encode into `buf[pos..]`, append
the `0x00` terminator, advance `pos` past it.  On error `pos` is unchanged
(the scratch bytes a failed/oversized inner `encode` wrote beyond `pos` are
carried along where `encode` reports them). -/
def Writer.encode_packet (w : Writer) (src : List Nat) : Except Error Nat × Writer :=
  match encode src (w.buf.drop w.pos) with
  | .error e => (.error e, w)
  | .ok (n, sub) =>
    if w.buf.length < w.pos + n + 1 then
      (.error .DestTooShort, { w with buf := w.buf.take w.pos ++ sub })
    else
      (.ok (n + 1), { buf := (w.buf.take w.pos ++ sub).set (w.pos + n) 0, pos := w.pos + n + 1 })

/-- `cobs::Reader` (src/cobs/src/lib.rs lines 170-230). -/
structure Reader where
  buf : List Nat
  head : Nat
  tail : Nat
deriving DecidableEq, Repr

/-- `Reader::len` (lines 185-187). -/
def Reader.len (r : Reader) : Nat := r.tail - r.head

/-- `Reader::extend` (lines 197-199): advances `tail` with no bounds check. -/
def Reader.extend (r : Reader) (len : Nat) : Reader := { r with tail := r.tail + len }

/-- `Reader::compact` (lines 201-206). -/
def Reader.compact (r : Reader) : Reader :=
  if r.head = r.tail then { r with head := 0, tail := 0 } else r

/-- `Reader::next_null` (lines 208-215): first zero at an index in
`head..buf.len()` (the scan runs to the end of the backing buffer, not to
`tail`). -/
def Reader.next_null (r : Reader) : Option Nat :=
  (List.range' r.head (r.buf.length - r.head)).find? (fun i => r.buf.getD i 1 = 0)

/-- `Reader::decode_packet` (lines 218-229): `head` is advanced past the
terminator before `decode` runs, so it stays advanced when `decode` fails. -/
def Reader.decode_packet (r : Reader) (dstCap : Nat) :
    Except Error (Option (List Nat)) × Reader :=
  if r.head = r.tail then (.ok none, r)
  else
    match r.next_null with
    | some z =>
      let r' := { r with head := z + 1 }
      match decode ((r.buf.drop r.head).take (z - r.head)) dstCap with
      | .ok out => (.ok (some out), r')
      | .error e => (.error e, r')
    | none => (.ok none, r)

/-- Cursor-buffer invariant from the spec: `0 ≤ head ≤ tail ≤ capacity`. -/
def Reader.Inv (r : Reader) : Prop := r.head ≤ r.tail ∧ r.tail ≤ r.buf.length

instance (r : Reader) : Decidable r.Inv := by unfold Reader.Inv; infer_instance

/-- `buffer::Buffer` (src/cobs/src/buffer.rs): fixed-capacity byte array with
head/tail cursors.  Its mutators `assert!`; a failed assertion (Rust panic)
is modelled as `none`. -/
structure Buffer where
  buf : List Nat
  head : Nat
  tail : Nat
deriving DecidableEq, Repr

/-- `Buffer::extend` (buffer.rs lines 33-37). -/
def Buffer.extend (b : Buffer) (value : Nat) : Option Buffer :=
  let tail' := b.tail + value
  if tail' ≤ b.buf.length then some { b with tail := tail' } else none

/-- `Buffer::push` (buffer.rs lines 39-44). -/
def Buffer.push (b : Buffer) (v : Nat) : Option Buffer :=
  if b.tail < b.buf.length then
    some { b with buf := b.buf.set b.tail v, tail := b.tail + 1 }
  else none

/-- `Buffer::advance` (buffer.rs lines 46-51). -/
def Buffer.advance (b : Buffer) (value : Nat) : Option Buffer :=
  let head' := b.head + value
  if head' ≤ b.tail ∧ head' ≤ b.buf.length then some { b with head := head' } else none

/-- `Buffer::compact` (buffer.rs lines 72-78). -/
def Buffer.compact (b : Buffer) : Buffer :=
  if b.head = b.tail then { b with head := 0, tail := 0 } else b

/-- Cursor-buffer invariant for `buffer::Buffer`. -/
def Buffer.Inv (b : Buffer) : Prop := b.head ≤ b.tail ∧ b.tail ≤ b.buf.length

instance (b : Buffer) : Decidable b.Inv := by unfold Buffer.Inv; infer_instance

/-! ### Functional description of `encode`'s output -/

/-- Given the running group `code` and the unread input, the value the loop
will finally write into the currently reserved header slot, together with the
bytes it will write at the consecutive positions `d`, `d+1`, … (literals and
later group headers, in position order). -/
def encodeFrom (code : Nat) : List Nat → Nat × List Nat
  | [] => (code, [])
  | b :: rest =>
    if b = 0 then
      (code, (encodeFrom 1 rest).1 :: (encodeFrom 1 rest).2)
    else if code + 1 = 255 then
      (255, b :: (encodeFrom 1 rest).1 :: (encodeFrom 1 rest).2)
    else
      ((encodeFrom (code + 1) rest).1, b :: (encodeFrom (code + 1) rest).2)

/-- Write `xs` at consecutive positions of `dst` starting at `i`. -/
def writeSeq (dst : List Nat) (i : Nat) : List Nat → List Nat
  | [] => dst
  | x :: xs => writeSeq (dst.set i x) (i + 1) xs

/-- The COBS encoding as a plain function: group decomposition with header
byte `length+1` (or `0xFF` for a full 254-literal group). -/
def cobsSpec (src : List Nat) : List Nat :=
  if ((src.takeWhile (· ≠ 0)).take 254).length = 254 then
    (255 :: (src.takeWhile (· ≠ 0)).take 254) ++ cobsSpec (src.drop 254)
  else if src.length ≤ ((src.takeWhile (· ≠ 0)).take 254).length then
    (((src.takeWhile (· ≠ 0)).take 254).length + 1) :: (src.takeWhile (· ≠ 0)).take 254
  else
    ((((src.takeWhile (· ≠ 0)).take 254).length + 1) :: (src.takeWhile (· ≠ 0)).take 254) ++
      cobsSpec (src.drop (((src.takeWhile (· ≠ 0)).take 254).length + 1))
  termination_by src.length
  decreasing_by
    all_goals simp only [List.length_drop]
    all_goals
      have h1 : ((src.takeWhile (· ≠ 0)).take 254).length ≤ src.length := by
        have h2 := List.length_take 254 (src.takeWhile (· ≠ 0))
        have h3 : (src.takeWhile (· ≠ 0)).length ≤ src.length :=
        (List.takeWhile_sublist _).length_le
        omega
    all_goals omega

theorem writeSeq_length (xs : List Nat) : ∀ dst i, (writeSeq dst i xs).length = dst.length := by
  induction xs with
  | nil => intro dst i; rfl
  | cons x xs ih => intro dst i; simp only [writeSeq, ih, List.length_set]

theorem writeSeq_set_comm (xs : List Nat) : ∀ dst i j v, j < i →
    writeSeq (dst.set j v) i xs = (writeSeq dst i xs).set j v := by
  induction xs with
  | nil => intro dst i j v _; rfl
  | cons x xs ih =>
    intro dst i j v h
    simp only [writeSeq]
    rw [List.set_comm _ _ _ (by omega : j ≠ i), ih _ _ _ _ (by omega)]

theorem writeSeq_eq (xs : List Nat) : ∀ dst i, i + xs.length ≤ dst.length →
    writeSeq dst i xs = dst.take i ++ xs ++ dst.drop (i + xs.length) := by
  induction xs with
  | nil => intro dst i h; simp [writeSeq]
  | cons x xs ih =>
    intro dst i h
    simp only [List.length_cons] at h
    have hi : i < dst.length := by omega
    simp only [writeSeq]
    rw [ih _ _ (by simp only [List.length_set]; omega)]
    have h1 : (dst.take i).length = i := by
      simp only [List.length_take]; omega
    have ha : (dst.set i x).take (i + 1) = dst.take i ++ [x] := by
      rw [List.set_eq_take_cons_drop _ hi, List.take_append_eq_append_take, h1,
          List.take_of_length_le (le_of_eq_of_le h1 (Nat.le_succ i))]
      have h2 : i + 1 - i = 1 := by omega
      rw [h2, List.take_succ_cons, List.take_zero]
    have hb : (dst.set i x).drop (i + 1 + xs.length) = dst.drop (i + 1 + xs.length) :=
      List.drop_set_of_lt _ _ (by omega)
    rw [ha, hb]
    have h3 : i + 1 + xs.length = i + (xs.length + 1) := by omega
    rw [h3]
    simp [List.append_assoc]


/-- Characterization of the encode loop: with the loop invariants
(`d = cp + code`, `1 ≤ code ≤ 254`, and `d` within bounds once a literal has
been written), the loop succeeds exactly when the header slot and all bytes
of `encodeFrom` fit, and then the destination is the functional output. -/
theorem encodeLoop_eq (rest : List Nat) : ∀ (dst : List Nat) (cp d code : Nat),
    d = cp + code → 1 ≤ code → code ≤ 254 → (2 ≤ code → d ≤ dst.length) →
    encodeLoop dst cp d code rest =
      if cp < dst.length ∧ d + (encodeFrom code rest).2.length ≤ dst.length then
        .ok (d + (encodeFrom code rest).2.length,
          (writeSeq dst d (encodeFrom code rest).2).set cp (encodeFrom code rest).1)
      else .error .DestTooShort := by
  induction rest with
  | nil =>
    intro dst cp d code hd h1 h254 hinv
    simp only [encodeLoop, encodeFrom, List.length_nil, Nat.add_zero, writeSeq]
    by_cases hcp : dst.length ≤ cp
    · rw [if_pos hcp, if_neg (by rintro ⟨hA, _⟩; omega)]
    · have hdlen : d ≤ dst.length := by
        rcases Nat.lt_or_ge code 2 with h2 | h2
        · omega
        · exact hinv h2
      rw [if_neg hcp, if_pos ⟨by omega, hdlen⟩]
  | cons b rest ih =>
    intro dst cp d code hd h1 h254 hinv
    by_cases hb : b = 0
    · subst hb
      have ihr := ih (dst.set cp code) d (d + 1) 1 rfl (by omega) (by omega)
        (by intro h2; exact absurd h2 (by omega))
      simp only [encodeLoop, encodeFrom, eq_self_iff_true, if_true]
      by_cases hcp : dst.length ≤ cp
      · rw [if_pos hcp, if_neg (by rintro ⟨hA, _⟩; omega)]
      · rw [if_neg hcp, ihr]
        simp only [List.length_set, List.length_cons]
        have hv : (writeSeq (dst.set cp code) (d + 1) (encodeFrom 1 rest).2).set d
              (encodeFrom 1 rest).1 =
            (writeSeq dst d ((encodeFrom 1 rest).1 :: (encodeFrom 1 rest).2)).set cp code := by
          simp only [writeSeq]
          rw [writeSeq_set_comm _ _ _ _ _ (by omega), writeSeq_set_comm _ _ _ _ _ (by omega),
            List.set_comm _ _ _ (by omega : cp ≠ d)]
        rw [hv]
        have harith : d + 1 + (encodeFrom 1 rest).2.length =
            d + ((encodeFrom 1 rest).2.length + 1) := by omega
        rw [harith]
        exact if_congr (by constructor <;> rintro ⟨hA, hB⟩ <;> exact ⟨by omega, hB⟩) rfl rfl
    · simp only [encodeLoop, encodeFrom, if_neg hb]
      by_cases hfull : code + 1 = 255
      · rw [if_pos hfull, if_pos hfull]
        have ihr := ih ((dst.set d b).set cp 255) (d + 1) (d + 2) 1 rfl (by omega) (by omega)
          (by intro h2; exact absurd h2 (by omega))
        by_cases hdlen : dst.length ≤ d
        · rw [if_pos hdlen,
            if_neg (by rintro ⟨_, hB⟩; simp only [List.length_cons] at hB; omega)]
        · rw [if_neg hdlen]
          by_cases hcp : dst.length ≤ cp
          · rw [if_pos hcp, if_neg (by rintro ⟨hA, _⟩; omega)]
          · rw [if_neg hcp, ihr]
            simp only [List.length_set, List.length_cons]
            have hv : (writeSeq ((dst.set d b).set cp 255) (d + 2) (encodeFrom 1 rest).2).set
                  (d + 1) (encodeFrom 1 rest).1 =
                (writeSeq dst d
                  (b :: (encodeFrom 1 rest).1 :: (encodeFrom 1 rest).2)).set cp 255 := by
              simp only [writeSeq]
              rw [writeSeq_set_comm _ _ _ _ _ (by omega : cp < d + 2),
                writeSeq_set_comm _ _ _ _ _ (by omega : d + 1 < d + 2),
                List.set_comm _ _ _ (by omega : cp ≠ d + 1)]
            rw [hv]
            have harith : d + 2 + (encodeFrom 1 rest).2.length =
                d + ((encodeFrom 1 rest).2.length + 1 + 1) := by omega
            rw [harith]
            exact if_congr (by constructor <;> rintro ⟨hA, hB⟩ <;> exact ⟨by omega, hB⟩) rfl rfl
      · rw [if_neg hfull, if_neg hfull]
        by_cases hdlen : dst.length ≤ d
        · rw [if_pos hdlen,
            if_neg (by rintro ⟨_, hB⟩; simp only [List.length_cons] at hB; omega)]
        · have ihr := ih (dst.set d b) cp (d + 1) (code + 1) (by omega) (by omega) (by omega)
            (by intro h2; simp only [List.length_set]; omega)
          rw [if_neg hdlen, ihr]
          simp only [List.length_set, List.length_cons, writeSeq]
          have harith : d + 1 + (encodeFrom (code + 1) rest).2.length =
              d + ((encodeFrom (code + 1) rest).2.length + 1) := by omega
          rw [harith]

/-- The functional output (header slot value consed to the emitted tail,
with `pre` the literals of the current partially filled group) is `cobsSpec`
of the remaining input. -/
theorem encodeFrom_cobsSpec (rest : List Nat) : ∀ (pre : List Nat) (code : Nat),
    code = pre.length + 1 → code ≤ 254 → (∀ x ∈ pre, x ≠ 0) →
    (encodeFrom code rest).1 :: (pre ++ (encodeFrom code rest).2) = cobsSpec (pre ++ rest) := by
  induction rest with
  | nil =>
    intro pre code hc h254 hpre
    have hall : ∀ x ∈ pre, (fun x => decide (x ≠ 0)) x = true := by
      intro x hx; simp [hpre x hx]
    rw [cobsSpec]
    rw [List.append_nil, List.takeWhile_eq_self_iff.mpr hall,
      List.take_of_length_le (by omega : pre.length ≤ 254)]
    rw [if_neg (by omega), if_pos (le_refl _)]
    simp only [encodeFrom, List.append_nil]
    rw [hc]
  | cons b rest ih =>
    intro pre code hc h254 hpre
    have hall : ∀ x ∈ pre, (fun x => decide (x ≠ 0)) x = true := by
      intro x hx; simpa using hpre x hx
    by_cases hb : b = 0
    · subst hb
      rw [cobsSpec]
      rw [List.takeWhile_append_of_pos hall]
      rw [List.takeWhile_cons_of_neg (by simp)]
      rw [List.append_nil, List.take_of_length_le (by omega : pre.length ≤ 254)]
      rw [if_neg (by omega),
        if_neg (by simp only [List.length_append, List.length_cons]; omega)]
      have hdrop : (pre ++ 0 :: rest).drop (pre.length + 1) = rest := by
        have h5 : (pre ++ 0 :: rest).drop (pre.length + 1) = (0 :: rest).drop 1 :=
          List.drop_append 1
        simp only [List.drop_succ_cons, List.drop_zero] at h5
        exact h5
      rw [hdrop]
      have ihr := ih [] 1 rfl (by omega) (by intro x hx; cases hx)
      simp only [List.nil_append] at ihr
      simp only [encodeFrom, eq_self_iff_true, if_true]
      rw [← ihr]
      simp [hc]
    · by_cases hfull : code + 1 = 255
      · have hlen : (pre ++ [b]).length = 254 := by
          simp only [List.length_append, List.length_cons, List.length_nil]; omega
        have hall2 : ∀ x ∈ pre ++ [b], (fun x => decide (x ≠ 0)) x = true := by
          intro x hx
          rcases List.mem_append.mp hx with hx | hx
          · exact hall x hx
          · simp only [List.mem_singleton] at hx; subst hx; simpa using hb
        rw [cobsSpec]
        have hassoc : pre ++ b :: rest = (pre ++ [b]) ++ rest := by simp
        rw [hassoc, List.takeWhile_append_of_pos hall2]
        rw [List.take_append_eq_append_take, List.take_of_length_le (by omega), hlen]
        have h0 : 254 - 254 = 0 := by omega
        rw [h0, List.take_zero, List.append_nil, if_pos hlen]
        rw [show (254 : Nat) = (pre ++ [b]).length from hlen.symm, List.drop_left]
        have ihr := ih [] 1 rfl (by omega) (by intro x hx; cases hx)
        simp only [List.nil_append] at ihr
        simp only [encodeFrom, if_neg hb, if_pos hfull]
        rw [← ihr]
        simp
      · have ihr := ih (pre ++ [b]) (code + 1)
          (by simp only [List.length_append, List.length_cons, List.length_nil]; omega)
          (by omega)
          (by intro x hx
              rcases List.mem_append.mp hx with hx | hx
              · exact hpre x hx
              · simp only [List.mem_singleton] at hx; subst hx; exact hb)
        simp only [encodeFrom, if_neg hb, if_neg hfull]
        have hassoc : (pre ++ [b]) ++ rest = pre ++ b :: rest := by simp
        rw [← hassoc, ← ihr]
        simp

/-- `cobsSpec` is the cons of `encodeFrom`'s header and tail. -/
theorem cobsSpec_encodeFrom (src : List Nat) :
    (encodeFrom 1 src).1 :: (encodeFrom 1 src).2 = cobsSpec src := by
  have h := encodeFrom_cobsSpec src [] 1 rfl (by omega) (by intro x hx; cases hx)
  simpa using h

/-- No byte of `encodeFrom`'s output is zero. -/
theorem encodeFrom_ne_zero (rest : List Nat) : ∀ code, 1 ≤ code → code ≤ 254 →
    (encodeFrom code rest).1 ≠ 0 ∧ ∀ x ∈ (encodeFrom code rest).2, x ≠ 0 := by
  induction rest with
  | nil => intro code h1 _; exact ⟨by simpa [encodeFrom] using (by omega : code ≠ 0), by
      intro x hx; simp [encodeFrom] at hx⟩
  | cons b rest ih =>
    intro code h1 h254
    by_cases hb : b = 0
    · subst hb
      obtain ⟨ihh, iht⟩ := ih 1 (by omega) (by omega)
      simp only [encodeFrom, eq_self_iff_true, if_true]
      refine ⟨by omega, ?_⟩
      intro x hx
      rcases List.mem_cons.mp hx with hx | hx
      · subst hx; exact ihh
      · exact iht x hx
    · by_cases hfull : code + 1 = 255
      · obtain ⟨ihh, iht⟩ := ih 1 (by omega) (by omega)
        simp only [encodeFrom, if_neg hb, if_pos hfull]
        refine ⟨by omega, ?_⟩
        intro x hx
        rcases List.mem_cons.mp hx with hx | hx
        · subst hx; exact hb
        · rcases List.mem_cons.mp hx with hx | hx
          · subst hx; exact ihh
          · exact iht x hx
      · obtain ⟨ihh, iht⟩ := ih (code + 1) (by omega) (by omega)
        simp only [encodeFrom, if_neg hb, if_neg hfull]
        refine ⟨ihh, ?_⟩
        intro x hx
        rcases List.mem_cons.mp hx with hx | hx
        · subst hx; exact hb
        · exact iht x hx

/-- No byte of the COBS encoding is zero. -/
theorem cobsSpec_ne_zero (src : List Nat) : ∀ x ∈ cobsSpec src, x ≠ 0 := by
  intro x hx
  rw [← cobsSpec_encodeFrom] at hx
  obtain ⟨hh, ht⟩ := encodeFrom_ne_zero src 1 (by omega) (by omega)
  rcases List.mem_cons.mp hx with hx | hx
  · subst hx; exact hh
  · exact ht x hx

/-- Successful `encode` yields exactly the functional COBS encoding as the
written prefix of the destination. -/
theorem encode_ok {src dst : List Nat} {n : Nat} {dstF : List Nat}
    (h : encode src dst = .ok (n, dstF)) :
    n = (cobsSpec src).length ∧ n ≤ dst.length ∧ dstF.length = dst.length ∧
      dstF.take n = cobsSpec src := by
  rw [encode, encodeLoop_eq src dst 0 1 1 rfl (le_refl 1) (by omega)
    (by intro h2; exact absurd h2 (by omega))] at h
  by_cases hcond : 0 < dst.length ∧ 1 + (encodeFrom 1 src).2.length ≤ dst.length
  · rw [if_pos hcond] at h
    obtain ⟨hc0, hc1⟩ := hcond
    have hlen : (cobsSpec src).length = (encodeFrom 1 src).2.length + 1 := by
      rw [← cobsSpec_encodeFrom]; simp
    injection h with h2
    have hn : n = 1 + (encodeFrom 1 src).2.length := (congrArg Prod.fst h2).symm
    have hdstF : dstF = (writeSeq dst 1 (encodeFrom 1 src).2).set 0 (encodeFrom 1 src).1 :=
      (congrArg Prod.snd h2).symm
    refine ⟨by omega, by omega, ?_, ?_⟩
    · rw [hdstF, List.length_set, writeSeq_length]
    · rw [hdstF, writeSeq_eq _ _ _ hc1]
      cases dst with
      | nil => simp at hc0
      | cons d0 dtl =>
        simp only [List.take_succ_cons, List.take_zero, List.cons_append, List.nil_append,
          List.set_cons_zero]
        rw [hn]
        have h3 : 1 + (encodeFrom 1 src).2.length = (encodeFrom 1 src).2.length + 1 := by omega
        rw [h3, List.take_succ_cons, List.take_append_eq_append_take,
          List.take_of_length_le (le_refl _), Nat.sub_self, List.take_zero, List.append_nil,
          cobsSpec_encodeFrom]
  · rw [if_neg hcond] at h
    cases h

/-- `cobsSpec` always emits at least a header byte. -/
theorem cobsSpec_ne_nil (src : List Nat) : cobsSpec src ≠ [] := by
  rw [← cobsSpec_encodeFrom]; simp

theorem takeWhileTake_append_drop (q : Nat → Bool) : ∀ (l : List Nat) (k : Nat),
    (l.takeWhile q).take k ++ l.drop ((l.takeWhile q).take k).length = l := by
  intro l
  induction l with
  | nil => intro k; simp
  | cons a l ih =>
    intro k
    by_cases hq : q a
    · rw [List.takeWhile_cons_of_pos hq]
      cases k with
      | zero => simp
      | succ k =>
        rw [List.take_succ_cons]
        simp only [List.length_cons, List.cons_append, List.drop_succ_cons]
        rw [ih k]
    · rw [List.takeWhile_cons_of_neg hq]
      simp

theorem drop_length_takeWhile (q : Nat → Bool) : ∀ (l : List Nat),
    l.drop (l.takeWhile q).length = l.dropWhile q := by
  intro l
  induction l with
  | nil => simp
  | cons a l ih =>
    by_cases hq : q a
    · rw [List.takeWhile_cons_of_pos hq, List.dropWhile_cons_of_pos hq]
      simp only [List.length_cons, List.drop_succ_cons]
      exact ih
    · rw [List.takeWhile_cons_of_neg hq, List.dropWhile_cons_of_neg hq]
      simp

/-- Decoding the functional COBS encoding appends exactly the original
input to the output accumulator. -/
theorem decodeLoop_cobsSpec : ∀ (n : Nat) (src : List Nat), src.length ≤ n →
    ∀ out, decodeLoop out (cobsSpec src) = .ok (out ++ src) := by
  intro n
  induction n with
  | zero =>
    intro src hlen out
    have hsrc : src = [] := List.eq_nil_of_length_eq_zero (by omega)
    subst hsrc
    simp [cobsSpec, decodeLoop]
  | succ n ih =>
    intro src hlen out
    have hmem : ∀ x ∈ (src.takeWhile (· ≠ 0)).take 254, x ≠ 0 := by
      intro x hx
      have hx2 := List.mem_takeWhile_imp (List.mem_of_mem_take hx)
      simpa using hx2
    have hplen : ((src.takeWhile (· ≠ 0)).take 254).length ≤ 254 := by
      simp [List.length_take]
    have hplensrc : ((src.takeWhile (· ≠ 0)).take 254).length ≤ src.length := by
      have h2 := List.length_take 254 (src.takeWhile (· ≠ 0))
      have h3 : (src.takeWhile (· ≠ 0)).length ≤ src.length :=
        (List.takeWhile_sublist _).length_le
      omega
    have hsplit := takeWhileTake_append_drop (fun x => decide (x ≠ 0)) src 254
    rw [cobsSpec]
    by_cases h254 : ((src.takeWhile (· ≠ 0)).take 254).length = 254
    · rw [if_pos h254]
      simp only [List.cons_append, decodeLoop]
      rw [if_neg (by omega)]
      rw [if_neg (by
        rintro ⟨hA, _⟩
        rw [List.length_append] at hA
        omega)]
      have hc1 : 255 - 1 = ((src.takeWhile (· ≠ 0)).take 254).length := by omega
      rw [hc1, List.take_left, List.drop_left]
      rw [if_neg (by
        intro h0
        exact (hmem 0 h0) rfl)]
      rw [if_neg (by rintro ⟨hA, _⟩; exact hA rfl)]
      rw [ih (src.drop 254) (by simp only [List.length_drop]; omega) (out ++ _)]
      rw [List.append_assoc]
      rw [h254] at hsplit
      rw [hsplit]
    · rw [if_neg h254]
      by_cases hfits : src.length ≤ ((src.takeWhile (· ≠ 0)).take 254).length
      · rw [if_pos hfits]
        have hpsrc : (src.takeWhile (· ≠ 0)).take 254 = src := by
          have hdrop : src.drop ((src.takeWhile (· ≠ 0)).take 254).length = [] :=
            List.drop_of_length_le hfits
          rw [hdrop, List.append_nil] at hsplit
          exact hsplit
        simp only [decodeLoop]
        rw [if_neg (by omega)]
        rw [if_neg (by rintro ⟨hA, _⟩; omega)]
        have hc1 : ((src.takeWhile (· ≠ 0)).take 254).length + 1 - 1 =
            ((src.takeWhile (· ≠ 0)).take 254).length := by omega
        rw [hc1, List.take_length, List.drop_length]
        rw [if_neg (by
          intro h0
          exact (hmem 0 h0) rfl)]
        rw [if_neg (by rintro ⟨_, hB⟩; exact hB rfl)]
        rw [decodeLoop, hpsrc]
      · rw [if_neg hfits]
        have htwlt : (src.takeWhile (· ≠ 0)).length < 254 := by
          have h6 := List.length_take 254 (src.takeWhile (· ≠ 0))
          omega
        have hpeq : (src.takeWhile (· ≠ 0)).take 254 = src.takeWhile (· ≠ 0) :=
          List.take_of_length_le (by omega)
        have hdw : src.drop ((src.takeWhile (· ≠ 0)).take 254).length =
            src.dropWhile (· ≠ 0) := by
          rw [hpeq]
          exact drop_length_takeWhile _ src
        have hdwne : src.dropWhile (· ≠ 0) ≠ [] := by
          intro hnil
          rw [hdw] at hsplit
          rw [hnil, List.append_nil] at hsplit
          have h9 := congrArg List.length hsplit
          omega
        obtain ⟨e, r', hdwcons⟩ : ∃ e r', src.dropWhile (· ≠ 0) = e :: r' := by
          cases hcase : src.dropWhile (· ≠ 0) with
          | nil => exact absurd hcase hdwne
          | cons e r' => exact ⟨e, r', rfl⟩
        have he : e = 0 := by
          by_contra hne
          have hall : ∀ x ∈ src.takeWhile (· ≠ 0), (fun x => decide (x ≠ 0)) x = true := by
            intro x hx
            simpa using List.mem_takeWhile_imp hx
          have hsrc2 : src = src.takeWhile (· ≠ 0) ++ e :: r' := by
            rw [← hdwcons]
            exact (List.takeWhile_append_dropWhile _ _).symm
          have h7 : src.takeWhile (· ≠ 0) =
              src.takeWhile (· ≠ 0) ++ e :: r'.takeWhile (· ≠ 0) := by
            conv_lhs => rw [hsrc2]
            rw [List.takeWhile_append_of_pos hall,
              List.takeWhile_cons_of_pos (by simpa using hne)]
          have h8 := congrArg List.length h7
          simp only [List.length_append, List.length_cons] at h8
          omega
        subst he
        have hr' : src.drop (((src.takeWhile (· ≠ 0)).take 254).length + 1) = r' := by
          have hdd := List.drop_drop 1 ((src.takeWhile (· ≠ 0)).take 254).length src
          rw [hdw, hdwcons] at hdd
          simpa using hdd.symm
        simp only [List.cons_append, decodeLoop]
        rw [if_neg (by omega)]
        rw [if_neg (by
          rintro ⟨hA, _⟩
          rw [List.length_append] at hA
          omega)]
        have hc1 : ((src.takeWhile (· ≠ 0)).take 254).length + 1 - 1 =
            ((src.takeWhile (· ≠ 0)).take 254).length := by omega
        rw [hc1, List.take_left, List.drop_left]
        rw [if_neg (by
          intro h0
          exact (hmem 0 h0) rfl)]
        rw [if_pos ⟨by omega, cobsSpec_ne_nil _⟩]
        rw [ih (src.drop (((src.takeWhile (· ≠ 0)).take 254).length + 1))
          (by simp only [List.length_drop]; omega) _]
        rw [hr']
        have hout : out ++ src =
            ((out ++ (src.takeWhile (· ≠ 0)).take 254) ++ [0]) ++ r' := by
          conv_lhs => rw [← hsplit]
          rw [hdw, hdwcons]
          simp
        rw [hout]

/-- Decoding the functional COBS encoding recovers the input exactly
(top-level `decode` wrapper). -/
theorem decode_cobsSpec (src : List Nat) (cap : Nat)
    (hcap : (cobsSpec src).length ≤ cap + 1) :
    decode (cobsSpec src) cap = .ok src := by
  rw [decode, if_neg (by omega)]
  have h := decodeLoop_cobsSpec src.length src (le_refl _) []
  simpa using h

/-- `next_null` finds nothing when no byte of `buf[head..buf.len()]` is
zero (the scan is *not* limited by `tail`). -/
theorem next_null_eq_none (r : Reader)
    (h : ∀ i, r.head ≤ i → i < r.buf.length → r.buf.getD i 1 ≠ 0) :
    r.next_null = none := by
  rw [Reader.next_null, List.find?_eq_none]
  intro i hi
  have hm := List.mem_range'_1.mp hi
  simp only [decide_eq_true_eq]
  exact h i hm.1 (by omega)

/-- `next_null` returns the first zero position in `head..buf.len()`. -/
theorem next_null_eq_some (r : Reader) (z : Nat)
    (hz1 : r.head ≤ z) (hz2 : z < r.buf.length) (hz0 : r.buf.getD z 1 = 0)
    (hfirst : ∀ i, r.head ≤ i → i < z → r.buf.getD i 1 ≠ 0) :
    r.next_null = some z := by
  rw [Reader.next_null]
  have key : ∀ (n a : Nat), a ≤ z → z < a + n →
      (∀ i, a ≤ i → i < z → r.buf.getD i 1 ≠ 0) →
      (List.range' a n).find? (fun i => r.buf.getD i 1 = 0) = some z := by
    intro n
    induction n with
    | zero =>
      intro a h1 h2 _
      exact absurd h2 (by omega)
    | succ n ih =>
      intro a h1 h2 h3
      rw [List.range'_succ, List.find?_cons]
      by_cases ha : a = z
      · subst ha
        have hd : (decide (r.buf.getD a 1 = 0)) = true := by simpa using hz0
        simp only [hd]
      · have haz : a < z := by omega
        have hd : (decide (r.buf.getD a 1 = 0)) = false := by
          simpa using h3 a (le_refl a) haz
        simp only [hd]
        exact ih (a + 1) (by omega) (by omega) (fun i hi1 hi2 => h3 i (by omega) hi2)
  exact key (r.buf.length - r.head) r.head hz1 (by omega) hfirst

end Cobs

namespace Leb128

/-- `leb128::Error` (src/leb128/src/lib.rs). -/
inductive Error where
  | BufferTooShort
  | OutOfRange
deriving DecidableEq, Repr

/-- `core::intrinsics::ctlz` on a `u8` value (count of leading zero bits in
eight bits), written as an explicit comparison chain. -/
def ctlz8 (b : Nat) : Nat :=
  if 128 ≤ b then 0
  else if 64 ≤ b then 1
  else if 32 ≤ b then 2
  else if 16 ≤ b then 3
  else if 8 ≤ b then 4
  else if 4 ≤ b then 5
  else if 2 ≤ b then 6
  else if 1 ≤ b then 7
  else 8

/-- A `u32` bit pattern read back as an `i32` value. -/
def toI32 (n : Nat) : Int :=
  if n < 2 ^ 31 then (n : Int) else (n : Int) - 2 ^ 32

/-- `leb128::Reader` (src/leb128/src/lib.rs lines 12-15): borrowed buffer
plus cursor. -/
structure Reader where
  buf : List Nat
  pos : Nat
deriving DecidableEq, Repr

/-- `Reader::remaining` (lines 35-37). -/
def Reader.remaining (r : Reader) : Nat := r.buf.length - r.pos

/-- `Reader::read_u1` (lines 39-45).  `!0x1` on a `u8` is `0xFE`. -/
def Reader.read_u1 (r : Reader) : Except Error (Option Bool) × Reader :=
  if r.remaining = 0 then (.ok none, r)
  else
    if ¬((r.buf.getD r.pos 0) &&& 0xFE = 0) then (.error .OutOfRange, r)
    else (.ok (some (r.buf.getD r.pos 0 ≠ 0)), { r with pos := r.pos + 1 })

/-- `Reader::read_u7` (lines 47-53).  `!(1 << 7)` on a `u8` is `0x7F`. -/
def Reader.read_u7 (r : Reader) : Except Error (Option Nat) × Reader :=
  if r.remaining = 0 then (.ok none, r)
  else
    if ¬((r.buf.getD r.pos 0) &&& 128 = 0) then (.error .OutOfRange, r)
    else (.ok (some ((r.buf.getD r.pos 0) &&& 0x7F)), { r with pos := r.pos + 1 })

/-- `Reader::read_i7` (lines 55-68).  The mask in the source is
`!0b0100_000` (seven bits, so `0xDF` as a `u8`); the sign-extension `or`s in
`(1 << shift).wrapping_neg()`, i.e. the pattern `2^8 - 2^shift` for
`shift < 8` (`shift` is always 7 here since bit 6 survives the mask). -/
def Reader.read_i7 (r : Reader) : Except Error (Option Int) × Reader :=
  if r.remaining = 0 then (.ok none, r)
  else
    let v := r.buf.getD r.pos 0
    if ¬(v &&& 128 = 0) then (.error .OutOfRange, r)
    else
      let result := v &&& 0x7F
      let result' :=
        if result &&& 0x40 ≠ 0 then
          (result ||| (2 ^ 8 - 2 ^ (8 - ctlz8 (v &&& 0xDF)) % 2 ^ 8)) % 2 ^ 8
        else result
      (.ok (some (if result' < 128 then (result' : Int) else (result' : Int) - 256)),
        { r with pos := r.pos + 1 })

/-- The accumulation loop shared by `Reader::read_u32` and `Reader::read_i32`
(lines 73-82 and 94-103): reads 7-bit groups until a byte without the
continuation bit; returns `none` when the buffer is exhausted mid-value (the
cursor has then already advanced to the end of the buffer, as in the source).
On `some`, returns (new cursor, accumulated 32-bit pattern, shift).
An over-long encoding shifts by ≥ 32; the `% 2 ^ 32` keeps the pattern in
`u32` range — the accumulated value is only ever used when the subsequent
range check passes, which requires every shift to have been `< 32`. -/
def readLoop (buf : List Nat) (pos result shift : Nat) : Option (Nat × Nat × Nat) :=
  if buf.length ≤ pos then none
  else
    let b := buf.getD pos 0
    let result' := (result ||| ((b &&& 0x7F) <<< shift)) % 2 ^ 32
    if b &&& 128 = 0 then some (pos + 1, result', shift + 7)
    else readLoop buf (pos + 1) result' (shift + 7)
  termination_by buf.length - pos
  decreasing_by omega

/-- `Reader::read_u32` (lines 70-88). -/
def Reader.read_u32 (r : Reader) : Except Error (Option Nat) × Reader :=
  match readLoop r.buf r.pos 0 0 with
  | none => (.ok none, { r with pos := r.buf.length })
  | some (pos', result, shift) =>
    let size := shift + 1 - ctlz8 (r.buf.getD (pos' - 1) 0)
    if ¬(size ≤ 32) then (.error .OutOfRange, { r with pos := pos' })
    else (.ok (some result), { r with pos := pos' })

/-- `Reader::read_i32` (lines 90-117).  `!(last_byte | 0b1000_0000)` on a
`u8` is `255 - (last_byte ||| 128)`; `((1 << shift) as i32).wrapping_neg()`
is the pattern `2 ^ 32 - 2 ^ shift`. -/
def Reader.read_i32 (r : Reader) : Except Error (Option Int) × Reader :=
  match readLoop r.buf r.pos 0 0 with
  | none => (.ok none, { r with pos := r.buf.length })
  | some (pos', result, shift) =>
    let last := r.buf.getD (pos' - 1) 0
    let size :=
      if last &&& 0x40 = 0 then shift + 1 - ctlz8 last
      else shift + 2 - ctlz8 (255 - (last ||| 128))
    if ¬(size ≤ 32) then (.error .OutOfRange, { r with pos := pos' })
    else
      let result' :=
        if shift < 32 ∧ last &&& 0x40 ≠ 0 then (result ||| (2 ^ 32 - 2 ^ shift)) % 2 ^ 32
        else result
      (.ok (some (toI32 result')), { r with pos := pos' })

/-- `leb128::Writer` (src/leb128/src/lib.rs lines 17-20): the destination is
only written at the cursor and read back through `as_ref() = buf[..pos]`, so
it is modelled as capacity plus written prefix (`pos = out.length`). -/
structure Writer where
  cap : Nat
  out : List Nat
deriving DecidableEq, Repr

/-- `Writer::pos` (lines 129-131). -/
def Writer.pos (w : Writer) : Nat := w.out.length

/-- `Writer::remaining` (lines 133-135). -/
def Writer.remaining (w : Writer) : Nat := w.cap - w.out.length

/-- The loop of `Writer::write_u32` (lines 164-178); appends bytes in place
of `buf[pos] = b; pos += 1`. -/
def writeU32Loop (cap : Nat) (out : List Nat) (value : Nat) :
    Except Error Unit × List Nat :=
  let b := value % 256 &&& 0x7F
  let value' := value >>> 7
  let b' := if value' ≠ 0 then b ||| 128 else b
  if cap - out.length < 1 then (.error .BufferTooShort, out)
  else if value' = 0 then (.ok (), out ++ [b'])
  else writeU32Loop cap (out ++ [b']) value'
  termination_by value
  decreasing_by
    rename_i h
    simp only [Nat.shiftRight_eq_div_pow] at *
    omega

/-- `Writer::write_u32` (lines 164-178). -/
def Writer.write_u32 (w : Writer) (value : Nat) : Except Error Unit × Writer :=
  match writeU32Loop w.cap w.out value with
  | (res, out') => (res, { w with out := out' })

theorem and_byte_mod (v : Int) :
    (v % 256).toNat &&& 0x7F = (v % 128).toNat := by
  have h1 := Nat.and_pow_two_sub_one_eq_mod (v % 256).toNat 7
  have h2 : (0x7F : Nat) = 2 ^ 7 - 1 := by norm_num
  have h3 : (2:Nat) ^ 7 = 128 := by norm_num
  rw [h2, h1, h3]
  have h4 : v % 256 % 128 = v % 128 := Int.emod_emod_of_dvd v (by norm_num)
  omega

theorem and64_iff : ∀ x, x < 128 → (x &&& 0x40 = 0 ↔ x < 64) := by decide

/-- The termination measure of the signed LEB128 write loop decreases. -/
theorem i32_measure_lt (value : Int)
    (hm : ¬((Int.fdiv value 128 = 0 ∧ (value % 256).toNat &&& 0x7F &&& 0x40 = 0) ∨
        (Int.fdiv value 128 = -1 ∧ (value % 256).toNat &&& 0x7F &&& 0x40 ≠ 0))) :
    (if Int.fdiv value 128 < 0 then -Int.fdiv value 128 - 1 else Int.fdiv value 128).toNat <
      (if value < 0 then -value - 1 else value).toNat := by
  rw [and_byte_mod] at hm
  rw [Int.fdiv_eq_ediv _ (by norm_num)] at hm ⊢
  have hbnd : 0 ≤ value % 128 ∧ value % 128 < 128 :=
    ⟨Int.emod_nonneg _ (by norm_num), Int.emod_lt_of_pos _ (by norm_num)⟩
  have h64 := and64_iff (value % 128).toNat (by omega)
  by_cases ha : (value % 128).toNat &&& 0x40 = 0
  · have hv1 : value / 128 ≠ 0 := fun h0 => hm (Or.inl ⟨h0, ha⟩)
    have hv2 : value % 128 < 64 := by have h5 := h64.mp ha; omega
    split_ifs <;> omega
  · have hv1 : value / 128 ≠ -1 := fun h0 => hm (Or.inr ⟨h0, ha⟩)
    have hv2 : 64 ≤ value % 128 := by
      rcases Nat.lt_or_ge (value % 128).toNat 64 with h5 | h5
      · exact absurd (h64.mpr h5) ha
      · omega
    split_ifs <;> omega

/-- The loop of `Writer::write_i32` (lines 180-199).  `value as u8 & 0x7f`
is `value.emod 256 &&& 0x7F`; `value >>= 7` on an `i32` is arithmetic shift,
i.e. flooring division by `2 ^ 7`. -/
def writeI32Loop (cap : Nat) (out : List Nat) (value : Int) :
    Except Error Unit × List Nat :=
  let b := (value % 256).toNat &&& 0x7F
  let value' := Int.fdiv value 128
  if (value' = 0 ∧ b &&& 0x40 = 0) ∨ (value' = -1 ∧ b &&& 0x40 ≠ 0) then
    if cap - out.length < 1 then (.error .BufferTooShort, out)
    else (.ok (), out ++ [b])
  else
    if cap - out.length < 1 then (.error .BufferTooShort, out)
    else writeI32Loop cap (out ++ [b ||| 128]) value'
  termination_by (if value < 0 then -value - 1 else value).toNat
  decreasing_by
    rename_i hm _
    exact i32_measure_lt value hm

/-- `Writer::write_i32` (lines 180-199). -/
def Writer.write_i32 (w : Writer) (value : Int) : Except Error Unit × Writer :=
  match writeI32Loop w.cap w.out value with
  | (res, out') => (res, { w with out := out' })

/-- The unsigned LEB128 byte string of `v` (least-significant group first,
continuation bit on all but the last byte). -/
def uleb (v : Nat) : List Nat :=
  if v < 128 then [v] else (v % 128 + 128) :: uleb (v / 128)
  termination_by v
  decreasing_by omega

/-- The signed LEB128 byte string of `v`. -/
def sleb (v : Int) : List Nat :=
  if (Int.fdiv v 128 = 0 ∧ (v % 128).toNat &&& 0x40 = 0) ∨
      (Int.fdiv v 128 = -1 ∧ (v % 128).toNat &&& 0x40 ≠ 0) then
    [(v % 128).toNat]
  else ((v % 128).toNat ||| 128) :: sleb (Int.fdiv v 128)
  termination_by (if v < 0 then -v - 1 else v).toNat
  decreasing_by
    rename_i hm
    apply i32_measure_lt
    rw [and_byte_mod]
    exact hm

theorem uleb_ne_nil (v : Nat) : uleb v ≠ [] := by
  rw [uleb]
  split <;> simp

theorem and_mod128 (v : Nat) : v % 256 &&& 0x7F = v % 128 := by
  have h1 := Nat.and_pow_two_sub_one_eq_mod (v % 256) 7
  have h2 : (0x7F : Nat) = 2 ^ 7 - 1 := by norm_num
  have h3 : (2:Nat) ^ 7 = 128 := by norm_num
  rw [h2, h1, h3, Nat.mod_mod_of_dvd v (by norm_num)]

theorem or128_eq (b : Nat) (hb : b < 128) : b ||| 128 = b + 128 := by
  have h := Nat.mul_add_lt_is_or (show b < 2 ^ 7 by simpa using hb) 1
  norm_num at h
  rw [Nat.lor_comm]
  omega

/-- The write loop appends exactly the unsigned LEB128 bytes when they fit. -/
theorem writeU32Loop_small (v cap : Nat) (out : List Nat) (hsmall : v < 128)
    (hcap : out.length + 1 ≤ cap) :
    writeU32Loop cap out v = (.ok (), out ++ [v]) := by
  have hsh : v >>> 7 = 0 := by
    rw [Nat.shiftRight_eq_div_pow]
    norm_num
    omega
  rw [writeU32Loop]
  simp only [hsh, ne_eq, eq_self_iff_true, not_true_eq_false, if_false, if_true]
  rw [if_neg (by omega), and_mod128, Nat.mod_eq_of_lt hsmall]

theorem writeU32Loop_ok : ∀ (fuel v : Nat), v ≤ fuel → ∀ (cap : Nat) (out : List Nat),
    out.length + (uleb v).length ≤ cap →
    writeU32Loop cap out v = (.ok (), out ++ uleb v) := by
  intro fuel
  induction fuel with
  | zero =>
    intro v hv cap out hcap
    have hv0 : v = 0 := by omega
    subst hv0
    rw [uleb, if_pos (by norm_num)] at hcap ⊢
    simp only [List.length_cons, List.length_nil] at hcap
    exact writeU32Loop_small 0 cap out (by norm_num) (by omega)
  | succ fuel ih =>
    intro v hv cap out hcap
    by_cases hsmall : v < 128
    · rw [uleb, if_pos hsmall] at hcap ⊢
      simp only [List.length_cons, List.length_nil] at hcap
      exact writeU32Loop_small v cap out hsmall (by omega)
    · have hsh : v >>> 7 = v / 128 := by
        rw [Nat.shiftRight_eq_div_pow]
      have hdiv : v / 128 ≠ 0 := by omega
      rw [uleb, if_neg hsmall] at hcap ⊢
      simp only [List.length_cons] at hcap
      rw [writeU32Loop]
      simp only [hsh, and_mod128]
      rw [if_neg (by omega), if_neg hdiv, if_pos hdiv]
      rw [or128_eq _ (by omega)]
      rw [ih (v / 128) (by omega) cap (out ++ [v % 128 + 128])
        (by simp only [List.length_append, List.length_cons, List.length_nil]; omega)]
      simp

/-- `Writer::write_u32` appends the unsigned LEB128 bytes when they fit. -/
theorem write_u32_ok (w : Writer) (v : Nat)
    (hcap : w.out.length + (uleb v).length ≤ w.cap) :
    w.write_u32 v = (.ok (), ⟨w.cap, w.out ++ uleb v⟩) := by
  rw [Writer.write_u32, writeU32Loop_ok v.succ v (by omega) w.cap w.out hcap]

theorem uleb_length_le : ∀ (k v : Nat), v < 2 ^ (7 * k + 7) → (uleb v).length ≤ k + 1 := by
  intro k
  induction k with
  | zero =>
    intro v hv
    norm_num at hv
    rw [uleb, if_pos hv]
    simp
  | succ k ih =>
    intro v hv
    rw [uleb]
    by_cases hsmall : v < 128
    · rw [if_pos hsmall]; simp
    · rw [if_neg hsmall]
      simp only [List.length_cons]
      have hlt : v / 128 < 2 ^ (7 * k + 7) := by
        have hp : (2:Nat) ^ (7 * (k+1) + 7) = 2 ^ (7 * k + 7) * 128 := by
          rw [show 7 * (k+1) + 7 = (7 * k + 7) + 7 by omega, Nat.pow_add]
        rw [hp] at hv
        omega
      have := ih (v / 128) hlt
      omega

theorem uleb_length_le_five (v : Nat) (hv : v < 2 ^ 32) : (uleb v).length ≤ 5 := by
  exact uleb_length_le 4 v (by norm_num at hv ⊢; omega)

theorem size_div_128 (v : Nat) (hv : 128 ≤ v) : Nat.size v = Nat.size (v / 128) + 7 := by
  have h1 : v / 128 < 2 ^ Nat.size (v / 128) := Nat.lt_size_self _
  have hpos : 0 < Nat.size (v / 128) := Nat.size_pos.mpr (by omega)
  have h2 : 2 ^ (Nat.size (v / 128) - 1) ≤ v / 128 :=
    Nat.lt_size.mp (by omega)
  have hp7 : (2:Nat) ^ (Nat.size (v / 128) + 7) = 2 ^ Nat.size (v / 128) * 128 := by
    rw [Nat.pow_add]
  have hp6 : (2:Nat) ^ (Nat.size (v / 128) - 1 + 7) = 2 ^ (Nat.size (v / 128) - 1) * 128 := by
    rw [Nat.pow_add]
  have h3 : v < 2 ^ (Nat.size (v / 128) + 7) := by rw [hp7]; omega
  have h4 : 2 ^ (Nat.size (v / 128) - 1 + 7) ≤ v := by rw [hp6]; omega
  have h5 := Nat.size_le.mpr h3
  have h6 := Nat.lt_size.mpr h4
  omega

/-- Last byte of the unsigned LEB128 encoding: below 128, and it carries the
leading bits of `v`. -/
theorem uleb_last : ∀ (fuel v : Nat), v ≤ fuel →
    (uleb v).getLastD 0 < 128 ∧
      7 * ((uleb v).length - 1) + Nat.size ((uleb v).getLastD 0) = Nat.size v := by
  intro fuel
  induction fuel with
  | zero =>
    intro v hv
    have hv0 : v = 0 := by omega
    subst hv0
    rw [uleb]
    norm_num
  | succ fuel ih =>
    intro v hv
    rw [uleb]
    by_cases hsmall : v < 128
    · rw [if_pos hsmall]
      have h9 : ([v] : List Nat).getLastD 0 = v := rfl
      rw [h9]
      simp only [List.length_cons, List.length_nil]
      exact ⟨hsmall, by omega⟩
    · rw [if_neg hsmall]
      obtain ⟨ih1, ih2⟩ := ih (v / 128) (by omega)
      have hne := uleb_ne_nil (v / 128)
      have hcons : ∀ (a : Nat) (l : List Nat), l ≠ [] → (a :: l).getLastD 0 = l.getLastD 0 := by
        intro a l hl
        cases l with
        | nil => exact absurd rfl hl
        | cons x xs => simp [List.getLastD_cons]
      rw [hcons _ _ hne]
      refine ⟨ih1, ?_⟩
      have hlen : 0 < (uleb (v / 128)).length := List.length_pos.mpr hne
      simp only [List.length_cons]
      rw [size_div_128 v (by omega)]
      omega

theorem getD_eq_head (buf : List Nat) (pos x : Nat) (xs : List Nat)
    (h : buf.drop pos = x :: xs) : buf.getD pos 0 = x := by
  have h1 : buf[pos]? = some x := by
    have h2 := List.getElem?_drop buf pos 0
    rw [h] at h2
    simpa using h2.symm
  simp [List.getD_eq_getElem?_getD, h1]

theorem lt128_and128 : ∀ x, x < 128 → x &&& 128 = 0 := by decide

theorem lt128_and127 (x : Nat) (hx : x < 128) : x &&& 0x7F = x := by
  have h2 : (0x7F : Nat) = 2 ^ 7 - 1 := by norm_num
  rw [h2, Nat.and_pow_two_sub_one_eq_mod, Nat.mod_eq_of_lt (by omega)]

theorem ge128_and128 (x : Nat) (hx : x < 128) : (x ||| 128) &&& 128 ≠ 0 := by
  rw [or128_eq x hx]
  have : ∀ y, y < 128 → (y + 128) &&& 128 ≠ 0 := by decide
  exact this x hx

theorem or_and127 (x : Nat) (hx : x < 128) : (x ||| 128) &&& 0x7F = x := by
  rw [or128_eq x hx]
  have h : ∀ y, y < 128 → (y + 128) &&& 0x7F = y := by decide
  exact h x hx

theorem lor_shift_add (a b s : Nat) (h : a < 2 ^ s) : a ||| b <<< s = b * 2 ^ s + a := by
  rw [Nat.shiftLeft_eq, Nat.lor_comm, Nat.mul_comm b (2 ^ s), ← Nat.mul_add_lt_is_or h b,
    Nat.mul_comm]

/-- One step of the read loop on a terminating byte (`b < 128`). -/
theorem readLoop_small (v : Nat) (hsmall : v < 128) (buf rest : List Nat)
    (pos acc shift : Nat) (hdrop : buf.drop pos = v :: rest) (hacc : acc < 2 ^ shift)
    (hlt : v * 2 ^ shift + acc < 2 ^ 32) :
    readLoop buf pos acc shift = some (pos + 1, v * 2 ^ shift + acc, shift + 7) := by
  rw [readLoop]
  rw [if_neg (by
    intro hle
    rw [List.drop_eq_nil_of_le hle] at hdrop
    exact (List.cons_ne_nil _ _) hdrop.symm)]
  rw [getD_eq_head buf pos v rest hdrop]
  rw [if_pos (lt128_and128 v hsmall)]
  rw [lt128_and127 v hsmall, lor_shift_add acc v shift hacc, Nat.mod_eq_of_lt hlt]

/-- The read loop consumes exactly the unsigned LEB128 bytes of `v`,
accumulating `v` shifted into place. -/
theorem readLoop_uleb : ∀ (fuel v : Nat), v ≤ fuel →
    ∀ (buf rest : List Nat) (pos acc shift : Nat),
    buf.drop pos = uleb v ++ rest →
    acc < 2 ^ shift →
    v * 2 ^ shift + acc < 2 ^ 32 →
    readLoop buf pos acc shift =
      some (pos + (uleb v).length, v * 2 ^ shift + acc, shift + 7 * (uleb v).length) := by
  intro fuel
  induction fuel with
  | zero =>
    intro v hv buf rest pos acc shift hdrop hacc hlt
    have hv0 : v = 0 := by omega
    subst hv0
    have hu : uleb 0 = [0] := by rw [uleb]; norm_num
    rw [hu] at hdrop ⊢
    simp only [List.cons_append, List.nil_append] at hdrop
    have h := readLoop_small 0 (by norm_num) buf rest pos acc shift hdrop hacc (by omega)
    rw [h]
    norm_num
  | succ fuel ih =>
    intro v hv buf rest pos acc shift hdrop hacc hlt
    by_cases hsmall : v < 128
    · have hu : uleb v = [v] := by rw [uleb, if_pos hsmall]
      rw [hu] at hdrop ⊢
      simp only [List.cons_append, List.nil_append] at hdrop
      rw [readLoop_small v hsmall buf rest pos acc shift hdrop hacc hlt]
      norm_num
    · have hu : uleb v = (v % 128 + 128) :: uleb (v / 128) := by rw [uleb, if_neg hsmall]
      have hfuel : v / 128 ≤ fuel := by
        have h6 := Nat.div_lt_self (show 0 < v by omega) (show 1 < 128 by norm_num)
        omega
      rw [hu] at hdrop ⊢
      rw [List.cons_append] at hdrop
      have hp : (2:Nat) ^ (shift + 7) = 2 ^ shift * 128 := by
        rw [Nat.pow_add]
      have hsplit : v / 128 * 2 ^ (shift + 7) + (v % 128 * 2 ^ shift + acc) =
          v * 2 ^ shift + acc := by
        rw [hp]
        have hring : v / 128 * (2 ^ shift * 128) + (v % 128 * 2 ^ shift + acc) =
            (128 * (v / 128) + v % 128) * 2 ^ shift + acc := by ring
        rw [hring, Nat.div_add_mod v 128]
      have hmono : v % 128 * 2 ^ shift + acc ≤ v * 2 ^ shift + acc := by
        have h3 := Nat.mod_le v 128
        exact Nat.add_le_add_right (Nat.mul_le_mul_right _ h3) acc
      rw [readLoop]
      rw [if_neg (by
        intro hle
        rw [List.drop_eq_nil_of_le hle] at hdrop
        exact (List.cons_ne_nil _ _) hdrop.symm)]
      rw [getD_eq_head buf pos (v % 128 + 128) _ hdrop]
      have hb : v % 128 + 128 = v % 128 ||| 128 := (or128_eq _ (by omega)).symm
      rw [hb, if_neg (by simpa using ge128_and128 (v % 128) (by omega)),
        or_and127 (v % 128) (by omega)]
      rw [lor_shift_add acc (v % 128) shift hacc, Nat.mod_eq_of_lt (by omega)]
      have hdrop' : buf.drop (pos + 1) = uleb (v / 128) ++ rest := by
        have h2 := List.drop_drop 1 pos buf
        rw [hdrop] at h2
        simpa using h2.symm
      have hacc' : v % 128 * 2 ^ shift + acc < 2 ^ (shift + 7) := by
        rw [hp]
        have hmul : v % 128 * 2 ^ shift ≤ 127 * 2 ^ shift :=
          Nat.mul_le_mul_right _ (by omega)
        omega
      rw [ih (v / 128) hfuel buf rest (pos + 1) (v % 128 * 2 ^ shift + acc) (shift + 7)
        hdrop' hacc' (by rw [hsplit]; exact hlt)]
      rw [hsplit]
      simp only [List.length_cons]
      have h1 : pos + 1 + (uleb (v / 128)).length = pos + ((uleb (v / 128)).length + 1) := by
        omega
      have h2 : shift + 7 + 7 * (uleb (v / 128)).length =
          shift + 7 * ((uleb (v / 128)).length + 1) := by omega
      rw [h1, h2]

theorem ctlz8_eq (b : Nat) (hb : b < 256) : ctlz8 b = 8 - Nat.size b := by
  have hsz : ∀ (m : Nat), 2 ^ m ≤ b → b < 2 ^ (m + 1) → Nat.size b = m + 1 := by
    intro m h1 h2
    have ha := Nat.size_le.mpr h2
    have hb2 := Nat.lt_size.mpr h1
    omega
  rw [ctlz8]
  split_ifs with h1 h2 h3 h4 h5 h6 h7 h8
  · rw [hsz 7 (by omega) (by omega)]
  · rw [hsz 6 (by omega) (by omega)]
  · rw [hsz 5 (by omega) (by omega)]
  · rw [hsz 4 (by omega) (by omega)]
  · rw [hsz 3 (by omega) (by omega)]
  · rw [hsz 2 (by omega) (by omega)]
  · rw [hsz 1 (by omega) (by omega)]
  · rw [hsz 0 (by omega) (by omega)]
  · have hb0 : b = 0 := by omega
    subst hb0
    simp [Nat.size_zero]

theorem getD_append_last (l rest : List Nat) (hne : l ≠ []) :
    (l ++ rest).getD (l.length - 1) 0 = l.getLastD 0 := by
  have hlen : 0 < l.length := List.length_pos.mpr hne
  rw [List.getD_eq_getElem?_getD, List.getElem?_append, if_pos (by omega),
    List.getLastD_eq_getLast?, List.getLast?_eq_getElem?]

/-- `Reader::read_u32` at the start of a buffer beginning with the unsigned
LEB128 bytes of an in-range `v` returns `v` and consumes exactly them. -/
theorem read_u32_uleb (v : Nat) (hv : v < 2 ^ 32) (rest : List Nat) :
    Reader.read_u32 ⟨uleb v ++ rest, 0⟩ =
      (.ok (some v), ⟨uleb v ++ rest, (uleb v).length⟩) := by
  have hrl := readLoop_uleb v v (le_refl v) (uleb v ++ rest) rest 0 0 0 (by simp)
    (by norm_num) (by simpa using hv)
  simp only [Nat.pow_zero, Nat.mul_one, Nat.add_zero, Nat.zero_add] at hrl
  obtain ⟨hlast128, hlastsize⟩ := uleb_last v v (le_refl v)
  have hlastD : (uleb v ++ rest).getD ((uleb v).length - 1) 0 = (uleb v).getLastD 0 :=
    getD_append_last _ _ (uleb_ne_nil v)
  have hlen : 0 < (uleb v).length := List.length_pos.mpr (uleb_ne_nil v)
  simp only [Reader.read_u32, hrl]
  rw [hlastD, ctlz8_eq _ (by omega)]
  have hsizev : Nat.size v ≤ 32 := Nat.size_le.mpr hv
  have hsize8 : Nat.size ((uleb v).getLastD 0) ≤ 8 := Nat.size_le.mpr (by omega)
  rw [if_neg (by omega)]

theorem getLastD_cons_ne (a : Nat) (l : List Nat) (hl : l ≠ []) :
    (a :: l).getLastD 0 = l.getLastD 0 := by
  cases l with
  | nil => exact absurd rfl hl
  | cons x xs => simp [List.getLastD_cons]

theorem sleb_ne_nil (v : Int) : sleb v ≠ [] := by
  rw [sleb]
  split <;> simp

theorem sleb_zero : sleb 0 = [0] := by
  rw [sleb, if_pos (by decide)]
  decide

theorem sleb_neg_one : sleb (-1) = [127] := by
  rw [sleb, if_pos (by decide)]
  decide

/-- Shape of the signed LEB128 bytes: the last byte is below 128, its bit 6
mirrors the sign of `v`, and its significant bits (for negative `v`: those of
its complement) extend the earlier groups to exactly the significant bits of
`v` (resp. of `-v-1`). -/
theorem sleb_spec : ∀ (fuel : Nat) (v : Int), (if v < 0 then -v - 1 else v).toNat ≤ fuel →
    (sleb v).getLastD 0 < 128 ∧
    (0 ≤ v → (sleb v).getLastD 0 < 64 ∧
      7 * ((sleb v).length - 1) + Nat.size ((sleb v).getLastD 0) = Nat.size v.toNat) ∧
    (v < 0 → 64 ≤ (sleb v).getLastD 0 ∧
      7 * ((sleb v).length - 1) + Nat.size (127 - (sleb v).getLastD 0) =
        Nat.size (-v - 1).toNat) := by
  have hstep : ∀ (fuel : Nat),
      (∀ (w : Int), (if w < 0 then -w - 1 else w).toNat ≤ fuel →
        (sleb w).getLastD 0 < 128 ∧
        (0 ≤ w → (sleb w).getLastD 0 < 64 ∧
          7 * ((sleb w).length - 1) + Nat.size ((sleb w).getLastD 0) = Nat.size w.toNat) ∧
        (w < 0 → 64 ≤ (sleb w).getLastD 0 ∧
          7 * ((sleb w).length - 1) + Nat.size (127 - (sleb w).getLastD 0) =
            Nat.size (-w - 1).toNat)) →
      ∀ (v : Int), (if v < 0 then -v - 1 else v).toNat ≤ fuel + 1 →
        (sleb v).getLastD 0 < 128 ∧
        (0 ≤ v → (sleb v).getLastD 0 < 64 ∧
          7 * ((sleb v).length - 1) + Nat.size ((sleb v).getLastD 0) = Nat.size v.toNat) ∧
        (v < 0 → 64 ≤ (sleb v).getLastD 0 ∧
          7 * ((sleb v).length - 1) + Nat.size (127 - (sleb v).getLastD 0) =
            Nat.size (-v - 1).toNat) := by
    intro fuel ih v hv
    have hfd : Int.fdiv v 128 = v / 128 := Int.fdiv_eq_ediv _ (by norm_num)
    have hb64 := and64_iff (v % 128).toNat (by omega)
    by_cases hC : (Int.fdiv v 128 = 0 ∧ (v % 128).toNat &&& 0x40 = 0) ∨
        (Int.fdiv v 128 = -1 ∧ (v % 128).toNat &&& 0x40 ≠ 0)
    · rw [sleb, if_pos hC]
      rw [hfd] at hC
      have hA : ([(v % 128).toNat] : List Nat).getLastD 0 = (v % 128).toNat := rfl
      rw [hA]
      refine ⟨by omega, ?_, ?_⟩
      · intro hv0
        have hleft : v / 128 = 0 ∧ (v % 128).toNat &&& 0x40 = 0 := by
          rcases hC with h | h
          · exact h
          · exact absurd h.1 (by omega)
        have hlt64 : (v % 128).toNat < 64 := hb64.mp hleft.2
        have hrange : v % 128 = v := by omega
        refine ⟨hlt64, ?_⟩
        have hvt : (v % 128).toNat = v.toNat := by omega
        rw [hvt]
        simp only [List.length_cons, List.length_nil]
        omega
      · intro hvn
        have hright : v / 128 = -1 ∧ (v % 128).toNat &&& 0x40 ≠ 0 := by
          rcases hC with h | h
          · exact absurd h.1 (by omega)
          · exact h
        have hge64 : 64 ≤ (v % 128).toNat := by
          rcases Nat.lt_or_ge (v % 128).toNat 64 with h5 | h5
          · exact absurd (hb64.mpr h5) hright.2
          · exact h5
        refine ⟨hge64, ?_⟩
        have hrange : v % 128 = v + 128 := by omega
        have h127 : 127 - (v % 128).toNat = (-v - 1).toNat := by omega
        rw [h127]
        simp only [List.length_cons, List.length_nil]
        omega
    · rw [sleb, if_neg hC]
      rw [hfd] at hC ⊢
      have hm : ¬((Int.fdiv v 128 = 0 ∧ (v % 256).toNat &&& 0x7F &&& 0x40 = 0) ∨
          (Int.fdiv v 128 = -1 ∧ (v % 256).toNat &&& 0x7F &&& 0x40 ≠ 0)) := by
        rw [and_byte_mod, hfd]
        exact hC
      have hdec := i32_measure_lt v hm
      rw [hfd] at hdec
      have hfuel : (if v / 128 < 0 then -(v / 128) - 1 else v / 128).toNat ≤ fuel := by
        omega
      obtain ⟨ih1, ih2, ih3⟩ := ih (v / 128) hfuel
      rw [getLastD_cons_ne _ _ (sleb_ne_nil _)]
      have hlen' : 0 < (sleb (v / 128)).length := List.length_pos.mpr (sleb_ne_nil _)
      refine ⟨ih1, ?_, ?_⟩
      · intro hv0
        obtain ⟨ihA, ihS⟩ := ih2 (by omega)
        refine ⟨ihA, ?_⟩
        simp only [List.length_cons]
        by_cases hge : 128 ≤ v.toNat
        · have e1 := size_div_128 v.toNat hge
          have e2 : v.toNat / 128 = (v / 128).toNat := by omega
          rw [e2] at e1
          omega
        · have hv0' : v / 128 = 0 := by omega
          have hX : (v % 128).toNat &&& 0x40 ≠ 0 := by
            intro hX0
            exact hC (Or.inl ⟨hv0', hX0⟩)
          have hge64 : 64 ≤ (v % 128).toNat := by
            rcases Nat.lt_or_ge (v % 128).toNat 64 with h5 | h5
            · exact absurd (hb64.mpr h5) hX
            · exact h5
          have hrange : v % 128 = v := by omega
          rw [hv0', sleb_zero]
          have hs1 : Nat.size v.toNat ≤ 7 := Nat.size_le.mpr (by omega)
          have hs2 : 7 ≤ Nat.size v.toNat := Nat.lt_size.mpr (by norm_num; omega)
          simp only [List.length_cons, List.length_nil]
          have hz : ([0] : List Nat).getLastD 0 = 0 := rfl
          rw [hz, Nat.size_zero]
          omega
      · intro hvn
        obtain ⟨ihA, ihS⟩ := ih3 (by omega)
        refine ⟨ihA, ?_⟩
        simp only [List.length_cons]
        by_cases hge : 128 ≤ (-v - 1).toNat
        · have e1 := size_div_128 (-v - 1).toNat hge
          have e2 : (-v - 1).toNat / 128 = (-(v / 128) - 1).toNat := by omega
          rw [e2] at e1
          omega
        · have hv1' : v / 128 = -1 := by omega
          have hX : (v % 128).toNat &&& 0x40 = 0 := by
            by_contra hX0
            exact hC (Or.inr ⟨hv1', hX0⟩)
          have hlt64 : (v % 128).toNat < 64 := hb64.mp hX
          have hrange : v % 128 = v + 128 := by omega
          rw [hv1', sleb_neg_one]
          have hs1 : Nat.size (-v - 1).toNat ≤ 7 := Nat.size_le.mpr (by omega)
          have hs2 : 7 ≤ Nat.size (-v - 1).toNat := Nat.lt_size.mpr (by norm_num; omega)
          simp only [List.length_cons, List.length_nil]
          have hz : ([127] : List Nat).getLastD 0 = 127 := rfl
          rw [hz, show (127:Nat) - 127 = 0 from rfl, Nat.size_zero]
          omega
  intro fuel
  induction fuel with
  | zero =>
    intro v hv
    have h01 : v = 0 ∨ v = -1 := by split_ifs at hv <;> omega
    rcases h01 with h0 | h0 <;> subst h0
    · rw [sleb_zero]
      refine ⟨by norm_num, fun _ => ⟨by norm_num, ?_⟩, fun h => absurd h (by norm_num)⟩
      rw [show (([0] : List Nat).getLastD 0) = 0 from rfl, Nat.size_zero,
        show ((0 : Int).toNat) = 0 from rfl, Nat.size_zero]
      norm_num
    · rw [sleb_neg_one]
      refine ⟨by norm_num, fun h => absurd h (by norm_num), fun _ => ⟨by norm_num, ?_⟩⟩
      rw [show (([127] : List Nat).getLastD 0) = 127 from rfl,
        show (127:Nat) - 127 = 0 from rfl, Nat.size_zero,
        show ((-(-1:Int) - 1).toNat) = 0 from rfl, Nat.size_zero]
      norm_num
  | succ fuel ih => exact hstep fuel ih

/-- An `i32` value needs at most five signed LEB128 bytes. -/
theorem sleb_length_le_five (v : Int) (h1 : -2 ^ 31 ≤ v) (h2 : v < 2 ^ 31) :
    (sleb v).length ≤ 5 := by
  obtain ⟨hA, hposf, hnegf⟩ := sleb_spec (if v < 0 then -v - 1 else v).toNat v (le_refl _)
  have hlen : 0 < (sleb v).length := List.length_pos.mpr (sleb_ne_nil v)
  rcases le_or_lt 0 v with hv | hv
  · obtain ⟨_, hS⟩ := hposf hv
    have hsz : Nat.size v.toNat ≤ 31 := Nat.size_le.mpr (by norm_num at h2 ⊢; omega)
    omega
  · obtain ⟨_, hS⟩ := hnegf hv
    have hsz : Nat.size (-v - 1).toNat ≤ 31 := Nat.size_le.mpr (by norm_num at h1 ⊢; omega)
    omega

/-- The signed write loop appends exactly the signed LEB128 bytes when they
fit. -/
theorem writeI32Loop_ok : ∀ (fuel : Nat) (v : Int),
    (if v < 0 then -v - 1 else v).toNat ≤ fuel →
    ∀ (cap : Nat) (out : List Nat), out.length + (sleb v).length ≤ cap →
    writeI32Loop cap out v = (.ok (), out ++ sleb v) := by
  have hstep : ∀ (fuel : Nat),
      (∀ (w : Int), (if w < 0 then -w - 1 else w).toNat ≤ fuel →
        ∀ (cap : Nat) (out : List Nat), out.length + (sleb w).length ≤ cap →
        writeI32Loop cap out w = (.ok (), out ++ sleb w)) →
      ∀ (v : Int), (if v < 0 then -v - 1 else v).toNat ≤ fuel + 1 →
        ∀ (cap : Nat) (out : List Nat), out.length + (sleb v).length ≤ cap →
        writeI32Loop cap out v = (.ok (), out ++ sleb v) := by
    intro fuel ih v hv cap out hcap
    by_cases hC : (Int.fdiv v 128 = 0 ∧ (v % 128).toNat &&& 0x40 = 0) ∨
        (Int.fdiv v 128 = -1 ∧ (v % 128).toNat &&& 0x40 ≠ 0)
    · rw [sleb, if_pos hC] at hcap ⊢
      simp only [List.length_cons, List.length_nil] at hcap
      rw [writeI32Loop]
      simp only [and_byte_mod]
      rw [if_pos hC, if_neg (by omega)]
    · rw [sleb, if_neg hC] at hcap ⊢
      simp only [List.length_cons] at hcap
      have hm : ¬((Int.fdiv v 128 = 0 ∧ (v % 256).toNat &&& 0x7F &&& 0x40 = 0) ∨
          (Int.fdiv v 128 = -1 ∧ (v % 256).toNat &&& 0x7F &&& 0x40 ≠ 0)) := by
        rw [and_byte_mod]
        exact hC
      have hdec := i32_measure_lt v hm
      have hlen' : 0 < (sleb (Int.fdiv v 128)).length :=
        List.length_pos.mpr (sleb_ne_nil _)
      rw [writeI32Loop]
      simp only [and_byte_mod]
      rw [if_neg hC, if_neg (by omega)]
      rw [ih (Int.fdiv v 128) (by omega) cap (out ++ [(v % 128).toNat ||| 128])
        (by simp only [List.length_append, List.length_cons, List.length_nil]; omega)]
      simp
  intro fuel
  induction fuel with
  | zero =>
    intro v hv cap out hcap
    by_cases hC : (Int.fdiv v 128 = 0 ∧ (v % 128).toNat &&& 0x40 = 0) ∨
        (Int.fdiv v 128 = -1 ∧ (v % 128).toNat &&& 0x40 ≠ 0)
    · rw [sleb, if_pos hC] at hcap ⊢
      simp only [List.length_cons, List.length_nil] at hcap
      rw [writeI32Loop]
      simp only [and_byte_mod]
      rw [if_pos hC, if_neg (by omega)]
    · exfalso
      have hm : ¬((Int.fdiv v 128 = 0 ∧ (v % 256).toNat &&& 0x7F &&& 0x40 = 0) ∨
          (Int.fdiv v 128 = -1 ∧ (v % 256).toNat &&& 0x7F &&& 0x40 ≠ 0)) := by
        rw [and_byte_mod]
        exact hC
      have hdec := i32_measure_lt v hm
      omega
  | succ fuel ih => exact hstep fuel ih

/-- `Writer::write_i32` appends the signed LEB128 bytes when they fit. -/
theorem write_i32_ok (w : Writer) (v : Int)
    (hcap : w.out.length + (sleb v).length ≤ w.cap) :
    w.write_i32 v = (.ok (), ⟨w.cap, w.out ++ sleb v⟩) := by
  rw [Writer.write_i32,
    writeI32Loop_ok (if v < 0 then -v - 1 else v).toNat v (le_refl _) w.cap w.out hcap]

/-- Splitting a flooring remainder by `128 * M` into the low seven bits and
the remainder of the arithmetic shift. -/
theorem emod_split (v M : Int) (hM : 0 < M) :
    v % (128 * M) = v % 128 + 128 * (v / 128 % M) := by
  have hq := Int.ediv_add_emod v (128 * M)
  have hveq : v = v % (128 * M) + M * (v / (128 * M)) * 128 := by
    conv_lhs => rw [← hq]
    ring
  have h1 : v % (128 * M) % 128 = v % 128 := Int.emod_emod_of_dvd v ⟨M, rfl⟩
  have h2 : v / 128 = v % (128 * M) / 128 + M * (v / (128 * M)) := by
    conv_lhs => rw [hveq]
    rw [Int.add_mul_ediv_right _ _ (by norm_num : (128:Int) ≠ 0)]
  have hrlo : 0 ≤ v % (128 * M) := Int.emod_nonneg v (by positivity)
  have hrhi : v % (128 * M) < 128 * M := Int.emod_lt_of_pos v (by positivity)
  have h3 : v / 128 % M = v % (128 * M) / 128 := by
    rw [h2, Int.add_mul_emod_self_left]
    exact Int.emod_eq_of_lt (Int.ediv_nonneg hrlo (by norm_num)) (by omega)
  rw [h3, ← h1]
  omega

/-- One step of the read loop on a terminating signed LEB128 byte. -/
theorem readLoop_sleb_single (v : Int)
    (hC : (Int.fdiv v 128 = 0 ∧ (v % 128).toNat &&& 0x40 = 0) ∨
        (Int.fdiv v 128 = -1 ∧ (v % 128).toNat &&& 0x40 ≠ 0))
    (buf rest : List Nat) (pos acc shift : Nat)
    (hdrop : buf.drop pos = sleb v ++ rest) (hacc : acc < 2 ^ shift) :
    readLoop buf pos acc shift =
      some (pos + (sleb v).length,
        (acc + (v % 2 ^ (7 * (sleb v).length)).toNat * 2 ^ shift) % 2 ^ 32,
        shift + 7 * (sleb v).length) := by
  rw [sleb, if_pos hC] at hdrop ⊢
  simp only [List.cons_append, List.nil_append] at hdrop
  have hb : (v % 128).toNat < 128 := by omega
  rw [readLoop]
  rw [if_neg (by
    intro hle
    rw [List.drop_eq_nil_of_le hle] at hdrop
    exact (List.cons_ne_nil _ _) hdrop.symm)]
  rw [getD_eq_head buf pos _ _ hdrop]
  rw [if_pos (lt128_and128 _ hb)]
  rw [lt128_and127 _ hb, lor_shift_add acc _ shift hacc]
  simp only [List.length_cons, List.length_nil]
  norm_num [Nat.add_comm]

/-- The read loop consumes exactly the signed LEB128 bytes of `v`,
accumulating the low `7 * length` bits of the two's-complement pattern
shifted into place (reduced to 32 bits). -/
theorem readLoop_sleb : ∀ (fuel : Nat) (v : Int),
    (if v < 0 then -v - 1 else v).toNat ≤ fuel →
    ∀ (buf rest : List Nat) (pos acc shift : Nat),
    buf.drop pos = sleb v ++ rest →
    acc < 2 ^ shift →
    shift + 7 * (sleb v).length ≤ 35 →
    readLoop buf pos acc shift =
      some (pos + (sleb v).length,
        (acc + (v % 2 ^ (7 * (sleb v).length)).toNat * 2 ^ shift) % 2 ^ 32,
        shift + 7 * (sleb v).length) := by
  have hstep : ∀ (fuel : Nat),
      (∀ (w : Int), (if w < 0 then -w - 1 else w).toNat ≤ fuel →
        ∀ (buf rest : List Nat) (pos acc shift : Nat),
        buf.drop pos = sleb w ++ rest → acc < 2 ^ shift →
        shift + 7 * (sleb w).length ≤ 35 →
        readLoop buf pos acc shift =
          some (pos + (sleb w).length,
            (acc + (w % 2 ^ (7 * (sleb w).length)).toNat * 2 ^ shift) % 2 ^ 32,
            shift + 7 * (sleb w).length)) →
      ∀ (v : Int), (if v < 0 then -v - 1 else v).toNat ≤ fuel + 1 →
        ∀ (buf rest : List Nat) (pos acc shift : Nat),
        buf.drop pos = sleb v ++ rest → acc < 2 ^ shift →
        shift + 7 * (sleb v).length ≤ 35 →
        readLoop buf pos acc shift =
          some (pos + (sleb v).length,
            (acc + (v % 2 ^ (7 * (sleb v).length)).toNat * 2 ^ shift) % 2 ^ 32,
            shift + 7 * (sleb v).length) := by
    intro fuel ih v hv buf rest pos acc shift hdrop hacc hshift
    by_cases hC : (Int.fdiv v 128 = 0 ∧ (v % 128).toNat &&& 0x40 = 0) ∨
        (Int.fdiv v 128 = -1 ∧ (v % 128).toNat &&& 0x40 ≠ 0)
    · exact readLoop_sleb_single v hC buf rest pos acc shift hdrop hacc
    · have hfd : Int.fdiv v 128 = v / 128 := Int.fdiv_eq_ediv _ (by norm_num)
      have hm : ¬((Int.fdiv v 128 = 0 ∧ (v % 256).toNat &&& 0x7F &&& 0x40 = 0) ∨
          (Int.fdiv v 128 = -1 ∧ (v % 256).toNat &&& 0x7F &&& 0x40 ≠ 0)) := by
        rw [and_byte_mod]
        exact hC
      have hdec := i32_measure_lt v hm
      rw [hfd] at hdec
      rw [sleb, if_neg hC] at hdrop hshift ⊢
      rw [hfd] at hdrop hshift ⊢
      simp only [List.length_cons] at hshift ⊢
      rw [List.cons_append] at hdrop
      have hb : (v % 128).toNat < 128 := by omega
      have hlen' : 0 < (sleb (v / 128)).length := List.length_pos.mpr (sleb_ne_nil _)
      rw [readLoop]
      rw [if_neg (by
        intro hle
        rw [List.drop_eq_nil_of_le hle] at hdrop
        exact (List.cons_ne_nil _ _) hdrop.symm)]
      rw [getD_eq_head buf pos _ _ hdrop]
      rw [if_neg (by simpa using ge128_and128 _ hb), or_and127 _ hb]
      rw [lor_shift_add acc _ shift hacc]
      have hp : (2:Nat) ^ (shift + 7) = 2 ^ shift * 128 := by
        rw [Nat.pow_add]
      have hmul : (v % 128).toNat * 2 ^ shift ≤ 127 * 2 ^ shift :=
        Nat.mul_le_mul_right _ (by omega)
      have hacc' : (v % 128).toNat * 2 ^ shift + acc < 2 ^ (shift + 7) := by
        rw [hp]; omega
      have h28 : (2:Nat) ^ (shift + 7) ≤ 2 ^ 28 :=
        Nat.pow_le_pow_right (by norm_num) (by omega)
      rw [Nat.mod_eq_of_lt (by norm_num at h28 ⊢; omega)]
      have hdrop' : buf.drop (pos + 1) = sleb (v / 128) ++ rest := by
        have h2 := List.drop_drop 1 pos buf
        rw [hdrop] at h2
        simpa using h2.symm
      rw [ih (v / 128) (by omega) buf rest (pos + 1)
        ((v % 128).toNat * 2 ^ shift + acc) (shift + 7) hdrop' hacc' (by omega)]
      have hPI : (2:Int) ^ (7 * ((sleb (v / 128)).length + 1)) =
          128 * 2 ^ (7 * (sleb (v / 128)).length) := by
        rw [show 7 * ((sleb (v / 128)).length + 1) =
          7 * (sleb (v / 128)).length + 7 from by ring, pow_add]
        ring
      have hsplit := emod_split v (2 ^ (7 * (sleb (v / 128)).length)) (by positivity)
      have hnn2 : 0 ≤ v / 128 % 2 ^ (7 * (sleb (v / 128)).length) :=
        Int.emod_nonneg _ (by positivity)
      rw [hPI, hsplit]
      have hval2 : (v % 128 + 128 * (v / 128 % 2 ^ (7 * (sleb (v / 128)).length))).toNat =
          (v % 128).toNat + 128 * (v / 128 % 2 ^ (7 * (sleb (v / 128)).length)).toNat := by
        omega
      rw [hval2]
      have e1 : pos + 1 + (sleb (v / 128)).length = pos + ((sleb (v / 128)).length + 1) := by
        omega
      have e2 : shift + 7 + 7 * (sleb (v / 128)).length =
          shift + 7 * ((sleb (v / 128)).length + 1) := by ring
      rw [e1, e2]
      have hval3 : (v % 128).toNat * 2 ^ shift + acc +
          (v / 128 % 2 ^ (7 * (sleb (v / 128)).length)).toNat * 2 ^ (shift + 7) =
          acc + ((v % 128).toNat +
            128 * (v / 128 % 2 ^ (7 * (sleb (v / 128)).length)).toNat) * 2 ^ shift := by
        rw [pow_add, show ((2:Nat) ^ 7) = 128 from by norm_num]
        ring
      rw [hval3]
  intro fuel
  induction fuel with
  | zero =>
    intro v hv buf rest pos acc shift hdrop hacc hshift
    by_cases hC : (Int.fdiv v 128 = 0 ∧ (v % 128).toNat &&& 0x40 = 0) ∨
        (Int.fdiv v 128 = -1 ∧ (v % 128).toNat &&& 0x40 ≠ 0)
    · exact readLoop_sleb_single v hC buf rest pos acc shift hdrop hacc
    · exfalso
      have hm : ¬((Int.fdiv v 128 = 0 ∧ (v % 256).toNat &&& 0x7F &&& 0x40 = 0) ∨
          (Int.fdiv v 128 = -1 ∧ (v % 256).toNat &&& 0x7F &&& 0x40 ≠ 0)) := by
        rw [and_byte_mod]
        exact hC
      have hdec := i32_measure_lt v hm
      omega
  | succ fuel ih => exact hstep fuel ih

/-- `Reader::read_i32` at the start of a buffer beginning with the signed
LEB128 bytes of an in-range `v` returns `v` and consumes exactly them. -/
theorem read_i32_sleb (v : Int) (hlo : -2 ^ 31 ≤ v) (hhi : v < 2 ^ 31) (rest : List Nat) :
    Reader.read_i32 ⟨sleb v ++ rest, 0⟩ =
      (.ok (some v), ⟨sleb v ++ rest, (sleb v).length⟩) := by
  obtain ⟨hA128, hposf, hnegf⟩ := sleb_spec (if v < 0 then -v - 1 else v).toNat v (le_refl _)
  have hlen : 0 < (sleb v).length := List.length_pos.mpr (sleb_ne_nil v)
  have hk5 : (sleb v).length ≤ 5 := sleb_length_le_five v hlo hhi
  have hrl := readLoop_sleb (if v < 0 then -v - 1 else v).toNat v (le_refl _)
    (sleb v ++ rest) rest 0 0 0 (by simp) (by norm_num) (by omega)
  simp only [Nat.pow_zero, Nat.mul_one, Nat.zero_add, Nat.add_zero] at hrl
  simp only [Reader.read_i32, hrl]
  rw [getD_append_last _ _ (sleb_ne_nil v)]
  have hcast : (((2:Nat) ^ (7 * (sleb v).length) : Nat) : Int) = 2 ^ (7 * (sleb v).length) := by
    push_cast
    ring
  rcases le_or_lt 0 v with hv | hv
  · obtain ⟨hA64, hS⟩ := hposf hv
    have h40 : (sleb v).getLastD 0 &&& 0x40 = 0 := (and64_iff _ hA128).mpr hA64
    rw [if_pos h40, ctlz8_eq _ (by omega)]
    have hhi' : v.toNat < 2 ^ 31 := by omega
    have hszv : Nat.size v.toNat ≤ 31 := Nat.size_le.mpr (by norm_num at hhi' ⊢; omega)
    have hszA : Nat.size ((sleb v).getLastD 0) ≤ 6 := Nat.size_le.mpr (by omega)
    rw [if_neg (not_not_intro (by omega))]
    rw [if_neg (fun hcc => hcc.2 h40)]
    have hvsz := Nat.lt_size_self v.toNat
    have hvlt : v.toNat < 2 ^ (7 * (sleb v).length) :=
      calc v.toNat < 2 ^ Nat.size v.toNat := hvsz
        _ ≤ 2 ^ (7 * (sleb v).length) := Nat.pow_le_pow_right (by norm_num) (by omega)
    have hmod : v % (2:Int) ^ (7 * (sleb v).length) = v := by
      apply Int.emod_eq_of_lt hv
      calc v = ((v.toNat : Nat) : Int) := (Int.toNat_of_nonneg hv).symm
        _ < (((2:Nat) ^ (7 * (sleb v).length) : Nat) : Int) := by exact_mod_cast hvlt
        _ = 2 ^ (7 * (sleb v).length) := hcast
    rw [hmod]
    rw [Nat.mod_eq_of_lt (by norm_num at hhi' ⊢; omega)]
    simp only [toI32]
    rw [if_pos hhi', Int.toNat_of_nonneg hv]
  · obtain ⟨hA64, hS⟩ := hnegf hv
    have h40 : ¬((sleb v).getLastD 0 &&& 0x40 = 0) := fun h =>
      absurd ((and64_iff _ hA128).mp h) (by omega)
    rw [if_neg h40, or128_eq _ hA128]
    rw [show 255 - ((sleb v).getLastD 0 + 128) = 127 - (sleb v).getLastD 0 from by omega]
    rw [ctlz8_eq _ (by omega)]
    have hlo' : (-v - 1).toNat < 2 ^ 31 := by omega
    have hszn : Nat.size (-v - 1).toNat ≤ 31 := Nat.size_le.mpr (by norm_num at hlo' ⊢; omega)
    have hsz127 : Nat.size (127 - (sleb v).getLastD 0) ≤ 6 := Nat.size_le.mpr (by omega)
    rw [if_neg (not_not_intro (by omega))]
    have hnsz := Nat.lt_size_self (-v - 1).toNat
    have hnlt : (-v - 1).toNat < 2 ^ (7 * (sleb v).length) :=
      calc (-v - 1).toNat < 2 ^ Nat.size (-v - 1).toNat := hnsz
        _ ≤ 2 ^ (7 * (sleb v).length) := Nat.pow_le_pow_right (by norm_num) (by omega)
    have hgeI : -(2:Int) ^ (7 * (sleb v).length) ≤ v := by
      have h1 : ((-v - 1).toNat : Int) = -v - 1 := Int.toNat_of_nonneg (by omega)
      have h2 : ((-v - 1).toNat : Int) < (((2:Nat) ^ (7 * (sleb v).length) : Nat) : Int) := by
        exact_mod_cast hnlt
      rw [h1, hcast] at h2
      omega
    have hmod : v % (2:Int) ^ (7 * (sleb v).length) = v + 2 ^ (7 * (sleb v).length) := by
      have h1 : (v + (2:Int) ^ (7 * (sleb v).length) * 1) % 2 ^ (7 * (sleb v).length) =
          v % 2 ^ (7 * (sleb v).length) := Int.add_mul_emod_self_left v _ 1
      calc v % (2:Int) ^ (7 * (sleb v).length)
          = (v + 2 ^ (7 * (sleb v).length) * 1) % 2 ^ (7 * (sleb v).length) := h1.symm
        _ = v + 2 ^ (7 * (sleb v).length) * 1 := Int.emod_eq_of_lt (by omega) (by omega)
        _ = v + 2 ^ (7 * (sleb v).length) := by ring
    rw [hmod]
    by_cases hk4 : 7 * (sleb v).length < 32
    · rw [if_pos ⟨hk4, h40⟩]
      have hPN : (2:Nat) ^ (7 * (sleb v).length) ≤ 2 ^ 31 :=
        Nat.pow_le_pow_right (by norm_num) (by omega)
      have hPN' : (2:Nat) ^ (7 * (sleb v).length) ≤ 2147483648 := by norm_num at hPN ⊢; omega
      have hRlt : (v + (2:Int) ^ (7 * (sleb v).length)).toNat <
          2 ^ (7 * (sleb v).length) := by omega
      rw [Nat.mod_eq_of_lt
        (show (v + (2:Int) ^ (7 * (sleb v).length)).toNat < 2 ^ 32 from by omega)]
      have hsub : (2:Nat) ^ 32 - 2 ^ (7 * (sleb v).length) =
          2 ^ (7 * (sleb v).length) * (2 ^ (32 - 7 * (sleb v).length) - 1) := by
        have hexp : 7 * (sleb v).length + (32 - 7 * (sleb v).length) = 32 := by omega
        rw [Nat.mul_sub, ← Nat.pow_add, hexp, Nat.mul_one]
      have hor : (v + (2:Int) ^ (7 * (sleb v).length)).toNat |||
          (2 ^ 32 - 2 ^ (7 * (sleb v).length)) =
          2 ^ 32 - 2 ^ (7 * (sleb v).length) +
            (v + (2:Int) ^ (7 * (sleb v).length)).toNat := by
        rw [Nat.lor_comm, hsub, ← Nat.mul_add_lt_is_or hRlt, ← hsub]
      rw [hor]
      rw [Nat.mod_eq_of_lt (by omega)]
      simp only [toI32]
      rw [if_neg (by omega)]
      rw [show ((2 ^ 32 - 2 ^ (7 * (sleb v).length) +
          (v + (2:Int) ^ (7 * (sleb v).length)).toNat : Nat) : Int) - 2 ^ 32 = v from by omega]
    · rw [if_neg (fun hcc => hk4 hcc.1)]
      have hk5' : (sleb v).length = 5 := by omega
      rw [hk5']
      simp only [toI32]
      have hval : ((v + (2:Int) ^ (7 * 5)).toNat % 2 ^ 32) = (v + 2 ^ 32).toNat := by
        rw [show (2:Int) ^ (7 * 5) = 2 ^ 35 from by norm_num]
        omega
      rw [hval]
      rw [if_neg (by omega)]
      rw [show (((v + (2:Int) ^ 32).toNat : Nat) : Int) - 2 ^ 32 = v from by omega]

end Leb128

namespace Tlv

/-- `tlv::Error` (src/tlv/src/lib.rs lines 8-12). -/
inductive Error where
  | BufferTooShort
  | OutOfRange
deriving DecidableEq, Repr

/-- `impl From<leb128::Error> for Error` (lines 14-21). -/
def errOfLeb : Leb128.Error → Error
  | .BufferTooShort => .BufferTooShort
  | .OutOfRange => .OutOfRange

/-- `tlv::Reader` (lines 24-27): borrowed buffer plus cursor. -/
structure Reader where
  buf : List Nat
  pos : Nat
deriving DecidableEq, Repr

/-- `Reader::remaining` (lines 43-45). -/
def Reader.remaining (r : Reader) : Nat := r.buf.length - r.pos

/-- `Reader::read_tag` (lines 51-62): a fresh leb128 reader on
`self.as_ref() = buf[pos..]`; on `Ok(None)` and on error the cursor is
untouched (`self.pos += len` is only reached on success). -/
def Reader.read_tag (r : Reader) : Except Error (Option Nat) × Reader :=
  match Leb128.Reader.read_u32 ⟨r.buf.drop r.pos, 0⟩ with
  | (.error e, _) => (.error (errOfLeb e), r)
  | (.ok none, _) => (.ok none, r)
  | (.ok (some value), r2) => (.ok (some value), { r with pos := r.pos + r2.pos })

/-- `Reader::read_u8` (lines 64-69). -/
def Reader.read_u8 (r : Reader) : Except Error (Option Nat) × Reader :=
  if r.remaining < 1 then (.ok none, r)
  else (.ok (some (r.buf.getD r.pos 0)), { r with pos := r.pos + 1 })

/-- `Reader::read_u16` (lines 71-76): big-endian. -/
def Reader.read_u16 (r : Reader) : Except Error (Option Nat) × Reader :=
  if r.remaining < 2 then (.ok none, r)
  else (.ok (some (r.buf.getD r.pos 0 * 256 + r.buf.getD (r.pos + 1) 0)),
    { r with pos := r.pos + 2 })

/-- `Reader::read_u32` (lines 78-83): big-endian. -/
def Reader.read_u32 (r : Reader) : Except Error (Option Nat) × Reader :=
  if r.remaining < 4 then (.ok none, r)
  else (.ok (some (r.buf.getD r.pos 0 * 2 ^ 24 + r.buf.getD (r.pos + 1) 0 * 2 ^ 16 +
      r.buf.getD (r.pos + 2) 0 * 2 ^ 8 + r.buf.getD (r.pos + 3) 0)),
    { r with pos := r.pos + 4 })

/-- `Reader::read` (lines 85-91) applied to a destination slice of length
`len`; returns the bytes copied into it (the `&buf[..n]` the callers hand
out). -/
def Reader.read (r : Reader) (len : Nat) : Except Error (Option (List Nat)) × Reader :=
  if len > r.remaining then (.ok none, r)
  else (.ok (some ((r.buf.drop r.pos).take len)), { r with pos := r.pos + len })

/-- `Reader::read_lv8` (lines 93-104).  `scratch` is the length of the
caller's value buffer `buf`; `&mut buf[..len]` with `len > buf.len()` is an
out-of-bounds slice, a Rust panic, modelled as `none`. -/
def Reader.read_lv8 (r : Reader) (scratch : Nat) :
    Option (Except Error (Option (List Nat)) × Reader) :=
  match r.read_u8 with
  | (.error e, r1) => some (.error e, r1)
  | (.ok none, r1) => some (.ok none, r1)
  | (.ok (some len), r1) =>
    if scratch < len then none
    else match r1.read len with
      | (.error e, r2) => some (.error e, r2)
      | (.ok none, r2) => some (.ok none, r2)
      | (.ok (some bytes), r2) => some (.ok (some bytes), r2)

/-- `Reader::read_lv16` (lines 106-117); panics modelled as in `read_lv8`. -/
def Reader.read_lv16 (r : Reader) (scratch : Nat) :
    Option (Except Error (Option (List Nat)) × Reader) :=
  match r.read_u16 with
  | (.error e, r1) => some (.error e, r1)
  | (.ok none, r1) => some (.ok none, r1)
  | (.ok (some len), r1) =>
    if scratch < len then none
    else match r1.read len with
      | (.error e, r2) => some (.error e, r2)
      | (.ok none, r2) => some (.ok none, r2)
      | (.ok (some bytes), r2) => some (.ok (some bytes), r2)

/-- `Reader::read_lv32` (lines 119-130); panics modelled as in `read_lv8`. -/
def Reader.read_lv32 (r : Reader) (scratch : Nat) :
    Option (Except Error (Option (List Nat)) × Reader) :=
  match r.read_u32 with
  | (.error e, r1) => some (.error e, r1)
  | (.ok none, r1) => some (.ok none, r1)
  | (.ok (some len), r1) =>
    if scratch < len then none
    else match r1.read len with
      | (.error e, r2) => some (.error e, r2)
      | (.ok none, r2) => some (.ok none, r2)
      | (.ok (some bytes), r2) => some (.ok (some bytes), r2)

/-- `Reader::read_tlv8` (lines 132-142). -/
def Reader.read_tlv8 (r : Reader) (scratch : Nat) :
    Option (Except Error (Option (Nat × List Nat)) × Reader) :=
  match r.read_tag with
  | (.error e, r1) => some (.error e, r1)
  | (.ok none, r1) => some (.ok none, r1)
  | (.ok (some tag), r1) =>
    match r1.read_lv8 scratch with
    | none => none
    | some (.error e, r2) => some (.error e, r2)
    | some (.ok none, r2) => some (.ok none, r2)
    | some (.ok (some msg), r2) => some (.ok (some (tag, msg)), r2)

/-- `Reader::read_tlv16` (lines 144-154). -/
def Reader.read_tlv16 (r : Reader) (scratch : Nat) :
    Option (Except Error (Option (Nat × List Nat)) × Reader) :=
  match r.read_tag with
  | (.error e, r1) => some (.error e, r1)
  | (.ok none, r1) => some (.ok none, r1)
  | (.ok (some tag), r1) =>
    match r1.read_lv16 scratch with
    | none => none
    | some (.error e, r2) => some (.error e, r2)
    | some (.ok none, r2) => some (.ok none, r2)
    | some (.ok (some msg), r2) => some (.ok (some (tag, msg)), r2)

/-- `Reader::read_tlv32` (lines 156-166). -/
def Reader.read_tlv32 (r : Reader) (scratch : Nat) :
    Option (Except Error (Option (Nat × List Nat)) × Reader) :=
  match r.read_tag with
  | (.error e, r1) => some (.error e, r1)
  | (.ok none, r1) => some (.ok none, r1)
  | (.ok (some tag), r1) =>
    match r1.read_lv32 scratch with
    | none => none
    | some (.error e, r2) => some (.error e, r2)
    | some (.ok none, r2) => some (.ok none, r2)
    | some (.ok (some msg), r2) => some (.ok (some (tag, msg)), r2)

/-- `tlv::Writer` (lines 29-32): destination written only at the cursor and
observed through `as_ref() = buf[..pos]`, so capacity plus written prefix
(`pos = out.length`). -/
structure Writer where
  cap : Nat
  out : List Nat
deriving DecidableEq, Repr

/-- `Writer::pos` (lines 222-224). -/
def Writer.pos (w : Writer) : Nat := w.out.length

/-- `Writer::remaining` (lines 230-232). -/
def Writer.remaining (w : Writer) : Nat := w.cap - w.out.length

/-- `Writer::write_tag` (lines 242-250): a fresh leb128 writer on
`self.as_mut() = buf[pos..]`; on error `self.pos` is unreached, and the
partial bytes the inner writer produced lie beyond `pos`, outside
`as_ref()`. -/
def Writer.write_tag (w : Writer) (tag : Nat) : Except Error Nat × Writer :=
  match Leb128.Writer.write_u32 ⟨w.cap - w.out.length, []⟩ tag with
  | (.error e, _) => (.error (errOfLeb e), w)
  | (.ok _, lw) => (.ok lw.out.length, { w with out := w.out ++ lw.out })

/-- `Writer::write_u8` (lines 252-257). -/
def Writer.write_u8 (w : Writer) (value : Nat) : Except Error Nat × Writer :=
  if w.remaining < 1 then (.error .BufferTooShort, w)
  else (.ok 1, { w with out := w.out ++ [value] })

/-- `Writer::write_u16` (lines 259-264): big-endian bytes, each reduced
`% 256` by the byteorder `as u8` casts. -/
def Writer.write_u16 (w : Writer) (value : Nat) : Except Error Nat × Writer :=
  if w.remaining < 2 then (.error .BufferTooShort, w)
  else (.ok 2, { w with out := w.out ++ [value >>> 8 % 256, value % 256] })

/-- `Writer::write_u32` (lines 266-271): the guard checks `remaining() < 2`
but `BigEndian::write_u32` then stores four bytes into `buf[pos..]` —
with `remaining` 2 or 3 that slice is too short and byteorder panics
(modelled as `none`). -/
def Writer.write_u32 (w : Writer) (value : Nat) : Option (Except Error Nat × Writer) :=
  if w.remaining < 2 then some (.error .BufferTooShort, w)
  else if w.remaining < 4 then none
  else some (.ok 4, { w with out := w.out ++
    [value >>> 24 % 256, value >>> 16 % 256, value >>> 8 % 256, value % 256] })

/-- `Writer::write` (lines 273-279). -/
def Writer.write (w : Writer) (value : List Nat) : Except Error Nat × Writer :=
  if w.remaining < value.length then (.error .BufferTooShort, w)
  else (.ok value.length, { w with out := w.out ++ value })

/-- `Writer::write_lv8` (lines 281-285): `len as u8` is `len % 256`; a
failure of the second write leaves the length byte written (the `?` after
`write_u8` has already advanced the cursor). -/
def Writer.write_lv8 (w : Writer) (value : List Nat) : Except Error Nat × Writer :=
  if value.length >>> 8 ≠ 0 then (.error .OutOfRange, w)
  else match w.write_u8 (value.length % 256) with
    | (.error e, w1) => (.error e, w1)
    | (.ok n1, w1) =>
      match w1.write value with
      | (.error e, w2) => (.error e, w2)
      | (.ok n2, w2) => (.ok (n1 + n2), w2)

/-- `Writer::write_lv16` (lines 287-291): `len as u16` is `len % 2 ^ 16`. -/
def Writer.write_lv16 (w : Writer) (value : List Nat) : Except Error Nat × Writer :=
  if value.length >>> 16 ≠ 0 then (.error .OutOfRange, w)
  else match w.write_u16 (value.length % 2 ^ 16) with
    | (.error e, w1) => (.error e, w1)
    | (.ok n1, w1) =>
      match w1.write value with
      | (.error e, w2) => (.error e, w2)
      | (.ok n2, w2) => (.ok (n1 + n2), w2)

/-- `Writer::write_lv32` (lines 293-297): the range guard is commented out
in the source; `len as u32` is `len % 2 ^ 32`. -/
def Writer.write_lv32 (w : Writer) (value : List Nat) : Option (Except Error Nat × Writer) :=
  match w.write_u32 (value.length % 2 ^ 32) with
  | none => none
  | some (.error e, w1) => some (.error e, w1)
  | some (.ok n1, w1) =>
    match w1.write value with
    | (.error e, w2) => some (.error e, w2)
    | (.ok n2, w2) => some (.ok (n1 + n2), w2)

/-- `Writer::write_tlv8` (lines 299-301). -/
def Writer.write_tlv8 (w : Writer) (tag : Nat) (value : List Nat) :
    Except Error Nat × Writer :=
  match w.write_tag tag with
  | (.error e, w1) => (.error e, w1)
  | (.ok n1, w1) =>
    match w1.write_lv8 value with
    | (.error e, w2) => (.error e, w2)
    | (.ok n2, w2) => (.ok (n1 + n2), w2)

/-- `Writer::write_tlv16` (lines 303-305). -/
def Writer.write_tlv16 (w : Writer) (tag : Nat) (value : List Nat) :
    Except Error Nat × Writer :=
  match w.write_tag tag with
  | (.error e, w1) => (.error e, w1)
  | (.ok n1, w1) =>
    match w1.write_lv16 value with
    | (.error e, w2) => (.error e, w2)
    | (.ok n2, w2) => (.ok (n1 + n2), w2)

/-- `Writer::write_tlv32` (lines 307-309). -/
def Writer.write_tlv32 (w : Writer) (tag : Nat) (value : List Nat) :
    Option (Except Error Nat × Writer) :=
  match w.write_tag tag with
  | (.error e, w1) => some (.error e, w1)
  | (.ok n1, w1) =>
    match w1.write_lv32 value with
    | none => none
    | some (.error e, w2) => some (.error e, w2)
    | some (.ok n2, w2) => some (.ok (n1 + n2), w2)

/-- `write_tag` appends exactly the LEB128 bytes of the tag when they fit. -/
theorem write_tag_ok (cap : Nat) (pre : List Nat) (tag : Nat)
    (hcap : pre.length + (Leb128.uleb tag).length ≤ cap) :
    Writer.write_tag ⟨cap, pre⟩ tag =
      (.ok (Leb128.uleb tag).length, ⟨cap, pre ++ Leb128.uleb tag⟩) := by
  have h := Leb128.write_u32_ok ⟨cap - pre.length, []⟩ tag
    (by simp only [List.length_nil]; omega)
  simp only [List.nil_append] at h
  simp only [Writer.write_tag, h]

/-- `read_tag` at the start of a LEB128-encoded tag reads it and advances
past its bytes. -/
theorem read_tag_ok (pre rest : List Nat) (tag : Nat) (htag : tag < 2 ^ 32) :
    Reader.read_tag ⟨pre ++ (Leb128.uleb tag ++ rest), pre.length⟩ =
      (.ok (some tag),
        ⟨pre ++ (Leb128.uleb tag ++ rest), pre.length + (Leb128.uleb tag).length⟩) := by
  have hd : (pre ++ (Leb128.uleb tag ++ rest)).drop pre.length = Leb128.uleb tag ++ rest :=
    List.drop_left _ _
  simp only [Reader.read_tag, hd, Leb128.read_u32_uleb tag htag rest]

/-- `read_u8` at a position holding `b` returns it and advances one byte. -/
theorem read_u8_ok (pre rest : List Nat) (b : Nat) :
    Reader.read_u8 ⟨pre ++ (b :: rest), pre.length⟩ =
      (.ok (some b), ⟨pre ++ (b :: rest), pre.length + 1⟩) := by
  have hd : (pre ++ (b :: rest)).drop pre.length = b :: rest := List.drop_left _ _
  rw [Reader.read_u8, if_neg (by
    simp only [Reader.remaining, List.length_append, List.length_cons]
    omega)]
  rw [Leb128.getD_eq_head _ _ b rest hd]

/-- `read` of exactly the next `value.length` bytes returns them. -/
theorem read_ok (pre rest value : List Nat) :
    Reader.read ⟨pre ++ (value ++ rest), pre.length⟩ value.length =
      (.ok (some value), ⟨pre ++ (value ++ rest), pre.length + value.length⟩) := by
  have hd : (pre ++ (value ++ rest)).drop pre.length = value ++ rest := List.drop_left _ _
  rw [Reader.read, if_neg (by
    simp only [Reader.remaining, List.length_append]
    omega)]
  rw [hd, List.take_left]

/-- `read_lv8` on a well-formed 8-bit length-value record returns the value
bytes when the caller's buffer is large enough. -/
theorem read_lv8_ok (pre rest value : List Nat) (scratch : Nat)
    (hscratch : value.length ≤ scratch) :
    Reader.read_lv8 ⟨pre ++ (value.length :: (value ++ rest)), pre.length⟩ scratch =
      some (.ok (some value),
        ⟨pre ++ (value.length :: (value ++ rest)), pre.length + 1 + value.length⟩) := by
  have h1 := read_u8_ok pre (value ++ rest) value.length
  have h2 := read_ok (pre ++ [value.length]) rest value
  simp only [List.append_assoc, List.singleton_append, List.length_append,
    List.length_cons, List.length_nil, Nat.zero_add] at h2
  simp only [Reader.read_lv8, h1]
  rw [if_neg (show ¬ scratch < value.length from by omega)]
  simp only [h2]

/-- `read_tlv8` on a well-formed record returns the tag and value and leaves
the cursor at the end of the record. -/
theorem read_tlv8_ok (pre rest value : List Nat) (tag : Nat) (htag : tag < 2 ^ 32)
    (scratch : Nat) (hscratch : value.length ≤ scratch) :
    Reader.read_tlv8 ⟨pre ++ (Leb128.uleb tag ++ value.length :: (value ++ rest)),
        pre.length⟩ scratch =
      some (.ok (some (tag, value)),
        ⟨pre ++ (Leb128.uleb tag ++ value.length :: (value ++ rest)),
          pre.length + ((Leb128.uleb tag).length + 1 + value.length)⟩) := by
  have h1 := read_tag_ok pre (value.length :: (value ++ rest)) tag htag
  have h2 := read_lv8_ok (pre ++ Leb128.uleb tag) rest value scratch hscratch
  simp only [List.append_assoc, List.length_append] at h2
  simp only [Reader.read_tlv8, h1, h2]
  simp only [Option.some.injEq, Prod.mk.injEq, Reader.mk.injEq]
  exact ⟨trivial, trivial, by omega⟩

/-- `write_u8` appends its byte when there is room. -/
theorem write_u8_ok (cap : Nat) (pre : List Nat) (b : Nat)
    (hcap : pre.length + 1 ≤ cap) :
    Writer.write_u8 ⟨cap, pre⟩ b = (.ok 1, ⟨cap, pre ++ [b]⟩) := by
  rw [Writer.write_u8, if_neg (by simp only [Writer.remaining]; omega)]

/-- `write` appends its bytes when there is room. -/
theorem write_ok (cap : Nat) (pre value : List Nat)
    (hcap : pre.length + value.length ≤ cap) :
    Writer.write ⟨cap, pre⟩ value = (.ok value.length, ⟨cap, pre ++ value⟩) := by
  rw [Writer.write, if_neg (by simp only [Writer.remaining]; omega)]

/-- `write_lv8` appends the length byte and the value when they fit and the
length is in range. -/
theorem write_lv8_ok (cap : Nat) (pre value : List Nat)
    (hlen : value.length < 256) (hcap : pre.length + (1 + value.length) ≤ cap) :
    Writer.write_lv8 ⟨cap, pre⟩ value =
      (.ok (1 + value.length), ⟨cap, pre ++ value.length :: value⟩) := by
  have hsh : value.length >>> 8 = 0 := by
    rw [Nat.shiftRight_eq_div_pow]
    omega
  have hm : value.length % 256 = value.length := Nat.mod_eq_of_lt hlen
  have h1 := write_u8_ok cap pre (value.length % 256) (by omega)
  have h2 := write_ok cap (pre ++ [value.length]) value
    (by simp only [List.length_append, List.length_cons, List.length_nil]; omega)
  rw [Writer.write_lv8, if_neg (by simp only [hsh]; exact fun h => h rfl)]
  simp only [h1]
  rw [hm]
  simp only [h2, List.append_assoc, List.singleton_append]

/-- `write_tlv8` appends the tag bytes, the length byte and the value when
they fit. -/
theorem write_tlv8_ok (cap : Nat) (pre value : List Nat) (tag : Nat)
    (hlen : value.length < 256)
    (hcap : pre.length + ((Leb128.uleb tag).length + (1 + value.length)) ≤ cap) :
    Writer.write_tlv8 ⟨cap, pre⟩ tag value =
      (.ok ((Leb128.uleb tag).length + (1 + value.length)),
        ⟨cap, pre ++ (Leb128.uleb tag ++ value.length :: value)⟩) := by
  have h1 := write_tag_ok cap pre tag (by omega)
  have h2 := write_lv8_ok cap (pre ++ Leb128.uleb tag) value hlen
    (by simp only [List.length_append]; omega)
  simp only [Writer.write_tlv8, h1, h2, List.append_assoc]

/-- `read_u16` at a position holding the big-endian bytes `b0 b1`. -/
theorem read_u16_ok (pre rest : List Nat) (b0 b1 : Nat) :
    Reader.read_u16 ⟨pre ++ (b0 :: b1 :: rest), pre.length⟩ =
      (.ok (some (b0 * 256 + b1)), ⟨pre ++ (b0 :: b1 :: rest), pre.length + 2⟩) := by
  have hd0 : (pre ++ (b0 :: b1 :: rest)).drop pre.length = b0 :: b1 :: rest :=
    List.drop_left _ _
  have hd1 : (pre ++ (b0 :: b1 :: rest)).drop (pre.length + 1) = b1 :: rest := by
    have h5 : (pre ++ (b0 :: b1 :: rest)).drop (pre.length + 1) = (b0 :: b1 :: rest).drop 1 :=
      List.drop_append 1
    rw [h5]
    simp
  rw [Reader.read_u16, if_neg (by
    simp only [Reader.remaining, List.length_append, List.length_cons]
    omega)]
  rw [Leb128.getD_eq_head _ _ b0 _ hd0, Leb128.getD_eq_head _ _ b1 _ hd1]

/-- `read_u32` at a position holding the big-endian bytes `b0 b1 b2 b3`. -/
theorem read_u32_ok (pre rest : List Nat) (b0 b1 b2 b3 : Nat) :
    Reader.read_u32 ⟨pre ++ (b0 :: b1 :: b2 :: b3 :: rest), pre.length⟩ =
      (.ok (some (b0 * 2 ^ 24 + b1 * 2 ^ 16 + b2 * 2 ^ 8 + b3)),
        ⟨pre ++ (b0 :: b1 :: b2 :: b3 :: rest), pre.length + 4⟩) := by
  have hd0 : (pre ++ (b0 :: b1 :: b2 :: b3 :: rest)).drop pre.length =
      b0 :: b1 :: b2 :: b3 :: rest := List.drop_left _ _
  have hd1 : (pre ++ (b0 :: b1 :: b2 :: b3 :: rest)).drop (pre.length + 1) =
      b1 :: b2 :: b3 :: rest := by
    have h5 : (pre ++ (b0 :: b1 :: b2 :: b3 :: rest)).drop (pre.length + 1) =
        (b0 :: b1 :: b2 :: b3 :: rest).drop 1 := List.drop_append 1
    rw [h5]
    simp
  have hd2 : (pre ++ (b0 :: b1 :: b2 :: b3 :: rest)).drop (pre.length + 2) =
      b2 :: b3 :: rest := by
    have h5 : (pre ++ (b0 :: b1 :: b2 :: b3 :: rest)).drop (pre.length + 2) =
        (b0 :: b1 :: b2 :: b3 :: rest).drop 2 := List.drop_append 2
    rw [h5]
    simp
  have hd3 : (pre ++ (b0 :: b1 :: b2 :: b3 :: rest)).drop (pre.length + 3) =
      b3 :: rest := by
    have h5 : (pre ++ (b0 :: b1 :: b2 :: b3 :: rest)).drop (pre.length + 3) =
        (b0 :: b1 :: b2 :: b3 :: rest).drop 3 := List.drop_append 3
    rw [h5]
    simp
  rw [Reader.read_u32, if_neg (by
    simp only [Reader.remaining, List.length_append, List.length_cons]
    omega)]
  rw [Leb128.getD_eq_head _ _ b0 _ hd0, Leb128.getD_eq_head _ _ b1 _ hd1,
    Leb128.getD_eq_head _ _ b2 _ hd2, Leb128.getD_eq_head _ _ b3 _ hd3]

/-- `read_lv16` on a well-formed 16-bit length-value record returns the
value bytes when the caller's buffer is large enough. -/
theorem read_lv16_ok (pre rest value : List Nat) (hlen : value.length < 2 ^ 16)
    (scratch : Nat) (hscratch : value.length ≤ scratch) :
    Reader.read_lv16
        ⟨pre ++ (value.length >>> 8 % 256 :: value.length % 256 :: (value ++ rest)),
          pre.length⟩ scratch =
      some (.ok (some value),
        ⟨pre ++ (value.length >>> 8 % 256 :: value.length % 256 :: (value ++ rest)),
          pre.length + 2 + value.length⟩) := by
  have h1 := read_u16_ok pre (value ++ rest) (value.length >>> 8 % 256) (value.length % 256)
  have hval : value.length >>> 8 % 256 * 256 + value.length % 256 = value.length := by
    rw [Nat.shiftRight_eq_div_pow]
    omega
  rw [hval] at h1
  have h2 : Reader.read
      ⟨pre ++ (value.length >>> 8 % 256 :: value.length % 256 :: (value ++ rest)),
        pre.length + 2⟩ value.length =
      (.ok (some value),
        ⟨pre ++ (value.length >>> 8 % 256 :: value.length % 256 :: (value ++ rest)),
          pre.length + 2 + value.length⟩) := by
    have h := read_ok (pre ++ [value.length >>> 8 % 256, value.length % 256]) rest value
    simpa using h
  simp only [Reader.read_lv16, h1]
  rw [if_neg (show ¬ scratch < value.length from by omega)]
  simp only [h2]

/-- `read_lv32` on a well-formed 32-bit length-value record returns the
value bytes when the caller's buffer is large enough. -/
theorem read_lv32_ok (pre rest value : List Nat) (hlen : value.length < 2 ^ 32)
    (scratch : Nat) (hscratch : value.length ≤ scratch) :
    Reader.read_lv32
        ⟨pre ++ (value.length >>> 24 % 256 :: value.length >>> 16 % 256 ::
          value.length >>> 8 % 256 :: value.length % 256 :: (value ++ rest)),
          pre.length⟩ scratch =
      some (.ok (some value),
        ⟨pre ++ (value.length >>> 24 % 256 :: value.length >>> 16 % 256 ::
          value.length >>> 8 % 256 :: value.length % 256 :: (value ++ rest)),
          pre.length + 4 + value.length⟩) := by
  have h1 := read_u32_ok pre (value ++ rest) (value.length >>> 24 % 256)
    (value.length >>> 16 % 256) (value.length >>> 8 % 256) (value.length % 256)
  have hval : value.length >>> 24 % 256 * 2 ^ 24 + value.length >>> 16 % 256 * 2 ^ 16 +
      value.length >>> 8 % 256 * 2 ^ 8 + value.length % 256 = value.length := by
    simp only [Nat.shiftRight_eq_div_pow]
    omega
  rw [hval] at h1
  have h2 : Reader.read
      ⟨pre ++ (value.length >>> 24 % 256 :: value.length >>> 16 % 256 ::
        value.length >>> 8 % 256 :: value.length % 256 :: (value ++ rest)),
        pre.length + 4⟩ value.length =
      (.ok (some value),
        ⟨pre ++ (value.length >>> 24 % 256 :: value.length >>> 16 % 256 ::
          value.length >>> 8 % 256 :: value.length % 256 :: (value ++ rest)),
          pre.length + 4 + value.length⟩) := by
    have h := read_ok (pre ++ [value.length >>> 24 % 256, value.length >>> 16 % 256,
      value.length >>> 8 % 256, value.length % 256]) rest value
    simpa using h
  simp only [Reader.read_lv32, h1]
  rw [if_neg (show ¬ scratch < value.length from by omega)]
  simp only [h2]

/-- `read_tlv16` on a well-formed record returns the tag and value and
leaves the cursor at the end of the record. -/
theorem read_tlv16_ok (pre rest value : List Nat) (tag : Nat) (htag : tag < 2 ^ 32)
    (hlen : value.length < 2 ^ 16) (scratch : Nat) (hscratch : value.length ≤ scratch) :
    Reader.read_tlv16
        ⟨pre ++ (Leb128.uleb tag ++ value.length >>> 8 % 256 :: value.length % 256 ::
          (value ++ rest)), pre.length⟩ scratch =
      some (.ok (some (tag, value)),
        ⟨pre ++ (Leb128.uleb tag ++ value.length >>> 8 % 256 :: value.length % 256 ::
          (value ++ rest)),
          pre.length + ((Leb128.uleb tag).length + 2 + value.length)⟩) := by
  have h1 := read_tag_ok pre
    (value.length >>> 8 % 256 :: value.length % 256 :: (value ++ rest)) tag htag
  have h2 := read_lv16_ok (pre ++ Leb128.uleb tag) rest value hlen scratch hscratch
  simp only [List.append_assoc, List.length_append] at h2
  simp only [Reader.read_tlv16, h1, h2]
  simp only [Option.some.injEq, Prod.mk.injEq, Reader.mk.injEq]
  exact ⟨trivial, trivial, by omega⟩

/-- `read_tlv32` on a well-formed record returns the tag and value and
leaves the cursor at the end of the record. -/
theorem read_tlv32_ok (pre rest value : List Nat) (tag : Nat) (htag : tag < 2 ^ 32)
    (hlen : value.length < 2 ^ 32) (scratch : Nat) (hscratch : value.length ≤ scratch) :
    Reader.read_tlv32
        ⟨pre ++ (Leb128.uleb tag ++ value.length >>> 24 % 256 :: value.length >>> 16 % 256 ::
          value.length >>> 8 % 256 :: value.length % 256 :: (value ++ rest)),
          pre.length⟩ scratch =
      some (.ok (some (tag, value)),
        ⟨pre ++ (Leb128.uleb tag ++ value.length >>> 24 % 256 :: value.length >>> 16 % 256 ::
          value.length >>> 8 % 256 :: value.length % 256 :: (value ++ rest)),
          pre.length + ((Leb128.uleb tag).length + 4 + value.length)⟩) := by
  have h1 := read_tag_ok pre
    (value.length >>> 24 % 256 :: value.length >>> 16 % 256 ::
      value.length >>> 8 % 256 :: value.length % 256 :: (value ++ rest)) tag htag
  have h2 := read_lv32_ok (pre ++ Leb128.uleb tag) rest value hlen scratch hscratch
  simp only [List.append_assoc, List.length_append] at h2
  simp only [Reader.read_tlv32, h1, h2]
  simp only [Option.some.injEq, Prod.mk.injEq, Reader.mk.injEq]
  exact ⟨trivial, trivial, by omega⟩

/-- `write_u16` appends its big-endian bytes when there is room. -/
theorem write_u16_ok (cap : Nat) (pre : List Nat) (v : Nat)
    (hcap : pre.length + 2 ≤ cap) :
    Writer.write_u16 ⟨cap, pre⟩ v = (.ok 2, ⟨cap, pre ++ [v >>> 8 % 256, v % 256]⟩) := by
  rw [Writer.write_u16, if_neg (by simp only [Writer.remaining]; omega)]

/-- `write_u32` appends its big-endian bytes when at least four bytes
remain (so the buggy guard is passed on the safe side). -/
theorem write_u32_be_ok (cap : Nat) (pre : List Nat) (v : Nat)
    (hcap : pre.length + 4 ≤ cap) :
    Writer.write_u32 ⟨cap, pre⟩ v =
      some (.ok 4,
        ⟨cap, pre ++ [v >>> 24 % 256, v >>> 16 % 256, v >>> 8 % 256, v % 256]⟩) := by
  rw [Writer.write_u32, if_neg (by simp only [Writer.remaining]; omega),
    if_neg (by simp only [Writer.remaining]; omega)]

/-- `write_lv16` appends the two length bytes and the value when they fit
and the length is in range. -/
theorem write_lv16_ok (cap : Nat) (pre value : List Nat)
    (hlen : value.length < 2 ^ 16) (hcap : pre.length + (2 + value.length) ≤ cap) :
    Writer.write_lv16 ⟨cap, pre⟩ value =
      (.ok (2 + value.length),
        ⟨cap, pre ++ value.length >>> 8 % 256 :: value.length % 256 :: value⟩) := by
  have hsh : value.length >>> 16 = 0 := by
    rw [Nat.shiftRight_eq_div_pow]
    omega
  have hm : value.length % 2 ^ 16 = value.length := Nat.mod_eq_of_lt hlen
  have h1 := write_u16_ok cap pre (value.length % 2 ^ 16) (by omega)
  have h2 := write_ok cap
    (pre ++ [value.length >>> 8 % 256, value.length % 256]) value
    (by simp only [List.length_append, List.length_cons, List.length_nil]; omega)
  rw [Writer.write_lv16, if_neg (by simp only [hsh]; exact fun h => h rfl)]
  simp only [h1]
  rw [hm]
  simp only [h2, List.append_assoc, List.cons_append, List.nil_append]

/-- `write_lv32` (no range guard in the source) appends the four length
bytes and the value when they fit. -/
theorem write_lv32_ok (cap : Nat) (pre value : List Nat)
    (hlen : value.length < 2 ^ 32) (hcap : pre.length + (4 + value.length) ≤ cap) :
    Writer.write_lv32 ⟨cap, pre⟩ value =
      some (.ok (4 + value.length),
        ⟨cap, pre ++ value.length >>> 24 % 256 :: value.length >>> 16 % 256 ::
          value.length >>> 8 % 256 :: value.length % 256 :: value⟩) := by
  have hm : value.length % 2 ^ 32 = value.length := Nat.mod_eq_of_lt hlen
  have h1 := write_u32_be_ok cap pre (value.length % 2 ^ 32) (by omega)
  have h2 := write_ok cap
    (pre ++ [value.length >>> 24 % 256, value.length >>> 16 % 256,
      value.length >>> 8 % 256, value.length % 256]) value
    (by simp only [List.length_append, List.length_cons, List.length_nil]; omega)
  simp only [Writer.write_lv32, h1]
  rw [hm]
  simp only [h2, List.append_assoc, List.cons_append, List.nil_append]

/-- `write_tlv16` appends the tag bytes, the two length bytes and the value
when they fit. -/
theorem write_tlv16_ok (cap : Nat) (pre value : List Nat) (tag : Nat)
    (hlen : value.length < 2 ^ 16)
    (hcap : pre.length + ((Leb128.uleb tag).length + (2 + value.length)) ≤ cap) :
    Writer.write_tlv16 ⟨cap, pre⟩ tag value =
      (.ok ((Leb128.uleb tag).length + (2 + value.length)),
        ⟨cap, pre ++ (Leb128.uleb tag ++ value.length >>> 8 % 256 ::
          value.length % 256 :: value)⟩) := by
  have h1 := write_tag_ok cap pre tag (by omega)
  have h2 := write_lv16_ok cap (pre ++ Leb128.uleb tag) value hlen
    (by simp only [List.length_append]; omega)
  simp only [Writer.write_tlv16, h1, h2, List.append_assoc]

/-- `write_tlv32` appends the tag bytes, the four length bytes and the value
when they fit. -/
theorem write_tlv32_ok (cap : Nat) (pre value : List Nat) (tag : Nat)
    (hlen : value.length < 2 ^ 32)
    (hcap : pre.length + ((Leb128.uleb tag).length + (4 + value.length)) ≤ cap) :
    Writer.write_tlv32 ⟨cap, pre⟩ tag value =
      some (.ok ((Leb128.uleb tag).length + (4 + value.length)),
        ⟨cap, pre ++ (Leb128.uleb tag ++ value.length >>> 24 % 256 ::
          value.length >>> 16 % 256 :: value.length >>> 8 % 256 ::
          value.length % 256 :: value)⟩) := by
  have h1 := write_tag_ok cap pre tag (by omega)
  have h2 := write_lv32_ok cap (pre ++ Leb128.uleb tag) value hlen
    (by simp only [List.length_append]; omega)
  simp only [Writer.write_tlv32, h1, h2, List.append_assoc]

end Tlv

namespace Sctl

/-- `sctl::Error` (src/sctl/src/lib.rs lines 8-12). -/
inductive Error where
  | CobsError : Cobs.Error → Error
  | TlvError : Tlv.Error → Error
deriving DecidableEq, Repr

/-- `sctl::Message` (lines 46-64); the borrowed value slices are the byte
lists read out of the record. -/
inductive Message where
  | Boot (value : List Nat)
  | Run (value : List Nat)
  | Exit (value : Nat)
  | Exception (value : List Nat)
  | Panic (value : List Nat)
  | Stdin (value : List Nat)
  | Stdout (value : List Nat)
  | Stderr (value : List Nat)
  | Error (value : List Nat)
  | Warn (value : List Nat)
  | Info (value : List Nat)
  | Debug (value : List Nat)
  | Trace (value : List Nat)
  | Val (value : List Nat)
  | Get (value : List Nat)
  | Set (value : List Nat)
deriving DecidableEq, Repr

/-- `sctl::Reader` (lines 66-70). -/
structure Reader where
  buf : List Nat
  len : Nat
  pos : Nat
deriving DecidableEq, Repr

/-- `Reader::read` (lines 89-115): a fresh tlv reader on `buf[pos..]`.
`_ => unimplemented!()` on an unknown tag and `value[0]` on an empty
`Exit` value are Rust panics, modelled (together with a tlv-level panic)
as `none`. -/
def Reader.read (r : Reader) (scratch : Nat) :
    Option (Except Error (Option Message) × Reader) :=
  match Tlv.Reader.read_tlv8 ⟨r.buf.drop r.pos, 0⟩ scratch with
  | none => none
  | some (.error e, _) => some (.error (.TlvError e), r)
  | some (.ok none, _) => some (.ok none, r)
  | some (.ok (some (tag, value)), tr) =>
    let r' := { r with pos := r.pos + tr.pos }
    if tag = 0x1 then some (.ok (some (.Boot value)), r')
    else if tag = 0x2 then some (.ok (some (.Run value)), r')
    else if tag = 0x3 then
      match value with
      | [] => none
      | b :: _ => some (.ok (some (.Exit b)), r')
    else if tag = 0x4 then some (.ok (some (.Exception value)), r')
    else if tag = 0x5 then some (.ok (some (.Panic value)), r')
    else if tag = 0x10 then some (.ok (some (.Stdin value)), r')
    else if tag = 0x11 then some (.ok (some (.Stdout value)), r')
    else if tag = 0x12 then some (.ok (some (.Stderr value)), r')
    else if tag = 0x20 then some (.ok (some (.Error value)), r')
    else if tag = 0x21 then some (.ok (some (.Warn value)), r')
    else if tag = 0x22 then some (.ok (some (.Info value)), r')
    else if tag = 0x23 then some (.ok (some (.Debug value)), r')
    else if tag = 0x24 then some (.ok (some (.Trace value)), r')
    else if tag = 0x30 then some (.ok (some (.Val value)), r')
    else if tag = 0x31 then some (.ok (some (.Get value)), r')
    else if tag = 0x32 then some (.ok (some (.Set value)), r')
    else none

end Sctl

/-! ### The claims -/

/-- C1: for every byte sequence `s`, if `cobs::encode(s, dst1)` succeeds
returning `n`, then `cobs::decode(dst1[..n], dst2)` succeeds and the decoded
bytes equal `s`, given a decode destination of sufficient capacity
(`decode`'s up-front check `dst.len() + 1 < src.len()` requires
`n ≤ cap + 1`). -/
theorem spec_c1 (src dst : List Nat) (n : Nat) (dstF : List Nat) (cap : Nat)
    (henc : Cobs.encode src dst = .ok (n, dstF)) (hcap : n ≤ cap + 1) :
    Cobs.decode (dstF.take n) cap = .ok src := by
  obtain ⟨hn, hle, hlen, htake⟩ := Cobs.encode_ok henc
  rw [htake]
  exact Cobs.decode_cobsSpec src cap (by omega)

theorem spec_c1_witness :
    Cobs.encode [17, 34, 0, 51] (List.replicate 8 0) =
      .ok (5, [3, 17, 34, 2, 51, 0, 0, 0]) ∧
    (5 : Nat) ≤ 4 + 1 ∧
    Cobs.decode ([3, 17, 34, 2, 51, 0, 0, 0].take 5) 4 = .ok [17, 34, 0, 51] :=
  ⟨rfl, by norm_num,
    spec_c1 [17, 34, 0, 51] (List.replicate 8 0) 5 [3, 17, 34, 2, 51, 0, 0, 0] 4 rfl
      (by norm_num)⟩

/-- C2: refuted — the codec layers do raise uncaught faults on reachable
inputs.  `tlv::Writer::write_u32` with `remaining = 3` passes its (wrong)
`remaining() < 2` guard and `BigEndian::write_u32` then stores four bytes
into a three-byte slice, a panic (modelled `none`); `sctl::Reader::read`
hits `unimplemented!()` on the unknown tag `0x06` and an out-of-bounds
`value[0]` on an `Exit` record with empty value. -/
theorem spec_c2 :
    Tlv.Writer.write_u32 ⟨3, []⟩ 0 = none ∧
    Sctl.Reader.read ⟨[6, 0], 0, 0⟩ 8 = none ∧
    Sctl.Reader.read ⟨[3, 0], 0, 0⟩ 8 = none := by
  refine ⟨rfl, ?_, ?_⟩ <;>
    simp +decide [Sctl.Reader.read, Tlv.Reader.read_tlv8, Tlv.Reader.read_tag,
      Tlv.Reader.read_lv8, Tlv.Reader.read_u8, Tlv.Reader.read, Tlv.Reader.remaining,
      Leb128.Reader.read_u32, Leb128.readLoop, Leb128.ctlz8]

/-- C3: LEB128 round-trips: `write_u32` then `read_u32` restores every
`u32`, `write_i32` then `read_i32` restores every `i32`, in a buffer of at
least five bytes; and the encodings of `300` and `-2` are `[0xAC, 0x02]` and
`[0x7E]`. -/
theorem spec_c3 :
    (∀ (v : Nat), v < 2 ^ 32 → ∀ (cap : Nat), 5 ≤ cap → ∀ (rest : List Nat),
      Leb128.Writer.write_u32 ⟨cap, []⟩ v = (.ok (), ⟨cap, Leb128.uleb v⟩) ∧
      Leb128.Reader.read_u32 ⟨Leb128.uleb v ++ rest, 0⟩ =
        (.ok (some v), ⟨Leb128.uleb v ++ rest, (Leb128.uleb v).length⟩)) ∧
    (∀ (v : Int), -2 ^ 31 ≤ v → v < 2 ^ 31 → ∀ (cap : Nat), 5 ≤ cap → ∀ (rest : List Nat),
      Leb128.Writer.write_i32 ⟨cap, []⟩ v = (.ok (), ⟨cap, Leb128.sleb v⟩) ∧
      Leb128.Reader.read_i32 ⟨Leb128.sleb v ++ rest, 0⟩ =
        (.ok (some v), ⟨Leb128.sleb v ++ rest, (Leb128.sleb v).length⟩)) ∧
    Leb128.uleb 300 = [0xAC, 0x02] ∧ Leb128.sleb (-2) = [0x7E] := by
  refine ⟨?_, ?_, ?_, ?_⟩
  · intro v hv cap hcap rest
    have h5 := Leb128.uleb_length_le_five v hv
    constructor
    · have h := Leb128.write_u32_ok ⟨cap, []⟩ v (by simp only [List.length_nil]; omega)
      simpa using h
    · exact Leb128.read_u32_uleb v hv rest
  · intro v h1 h2 cap hcap rest
    have h5 := Leb128.sleb_length_le_five v h1 h2
    constructor
    · have h := Leb128.write_i32_ok ⟨cap, []⟩ v (by simp only [List.length_nil]; omega)
      simpa using h
    · exact Leb128.read_i32_sleb v h1 h2 rest
  · rw [Leb128.uleb, if_neg (by norm_num), Leb128.uleb, if_pos (by norm_num)]
  · rw [Leb128.sleb, if_pos (by decide)]
    decide

theorem spec_c3_witness :
    Leb128.Writer.write_u32 ⟨5, []⟩ 300 = (.ok (), ⟨5, Leb128.uleb 300⟩) ∧
    Leb128.Writer.write_i32 ⟨5, []⟩ (-2) = (.ok (), ⟨5, Leb128.sleb (-2)⟩) :=
  ⟨(spec_c3.1 300 (by norm_num) 5 (le_refl 5) []).1,
    (spec_c3.2.1 (-2) (by norm_num) (by norm_num) 5 (le_refl 5) []).1⟩

/-- C4: refuted for the signed reader.  The five-byte encoding
`[0xFF, 0xFF, 0xFF, 0xFF, 0x0F]` carries the 32-bit pattern `0xFFFFFFFF`
(unsigned value `4294967295`, and as a signed LEB128 datum a positive value
far outside `i32`), yet `read_i32` accepts it and truncates it to `-1`
instead of returning `OutOfRange` (its size check uses `shift + 2 - ctlz`
of the complement on the sign-clear path's `+ 1` budget).  The unsigned
reader does reject a terminating byte carrying more than four value bits. -/
theorem spec_c4 :
    Leb128.Reader.read_i32 ⟨[0xFF, 0xFF, 0xFF, 0xFF, 0x0F], 0⟩ =
      (.ok (some (-1)), ⟨[0xFF, 0xFF, 0xFF, 0xFF, 0x0F], 5⟩) ∧
    Leb128.Reader.read_u32 ⟨[0xFF, 0xFF, 0xFF, 0xFF, 0x1F], 0⟩ =
      (.error .OutOfRange, ⟨[0xFF, 0xFF, 0xFF, 0xFF, 0x1F], 5⟩) := by
  constructor
  · simp +decide [Leb128.Reader.read_i32, Leb128.readLoop, Leb128.ctlz8, Leb128.toI32]
  · simp +decide [Leb128.Reader.read_u32, Leb128.readLoop, Leb128.ctlz8]

/-- C5 (amended): `tlv::Reader::read_tag` indeed performs zero mutation when
it returns `Ok(None)` or an error; but the `leb128` readers do not — on
`Ok(None)` `read_u32` leaves its cursor at the end of the buffer (the loop
advances `pos` before discovering the data ran out). -/
theorem spec_c5 :
    (∀ r : Tlv.Reader, (Tlv.Reader.read_tag r).1 = .ok none →
      (Tlv.Reader.read_tag r).2 = r) ∧
    (∀ (r : Tlv.Reader) (e : Tlv.Error), (Tlv.Reader.read_tag r).1 = .error e →
      (Tlv.Reader.read_tag r).2 = r) ∧
    (∀ r : Leb128.Reader, (Leb128.Reader.read_u32 r).1 = .ok none →
      (Leb128.Reader.read_u32 r).2 = ⟨r.buf, r.buf.length⟩) := by
  refine ⟨?_, ?_, ?_⟩
  · intro r
    rcases hres : Leb128.Reader.read_u32 ⟨r.buf.drop r.pos, 0⟩ with ⟨res, r2⟩
    cases res with
    | error e => simp [Tlv.Reader.read_tag, hres]
    | ok o =>
      cases o with
      | none => simp [Tlv.Reader.read_tag, hres]
      | some v => simp [Tlv.Reader.read_tag, hres]
  · intro r e
    rcases hres : Leb128.Reader.read_u32 ⟨r.buf.drop r.pos, 0⟩ with ⟨res, r2⟩
    cases res with
    | error e2 => simp [Tlv.Reader.read_tag, hres]
    | ok o =>
      cases o with
      | none => simp [Tlv.Reader.read_tag, hres]
      | some v => simp [Tlv.Reader.read_tag, hres]
  · intro r
    rcases hrl : Leb128.readLoop r.buf r.pos 0 0 with _ | ⟨pos', result, shift⟩
    · simp [Leb128.Reader.read_u32, hrl]
    · simp only [Leb128.Reader.read_u32, hrl]
      split_ifs with h <;> simp

theorem spec_c5_witness :
    (Leb128.Reader.read_u32 ⟨[0x80], 0⟩).1 = .ok none ∧
    (Leb128.Reader.read_u32 ⟨[0x80], 0⟩).2 = ⟨[0x80], 1⟩ := by
  have h1 : (Leb128.Reader.read_u32 ⟨[0x80], 0⟩).1 = .ok none := by
    simp +decide [Leb128.Reader.read_u32, Leb128.readLoop]
  exact ⟨h1, spec_c5.2.2 ⟨[0x80], 0⟩ h1⟩

/-- C5 counterexample: a truncated varint (`[0x80]`, continuation bit set,
no following byte) makes `leb128::Reader::read_u32` return `Ok(None)` with
its position advanced from `0` to `1` — the claimed "zero mutation" is
violated, so the retry after `extend`ing would resume mid-varint. -/
theorem spec_c5_counterexample :
    Leb128.Reader.read_u32 ⟨[0x80], 0⟩ = (.ok none, ⟨[0x80], 1⟩) ∧
    ((⟨[0x80], 1⟩ : Leb128.Reader) ≠ ⟨[0x80], 0⟩) := by
  refine ⟨?_, by decide⟩
  simp +decide [Leb128.Reader.read_u32, Leb128.readLoop]

/-- C6 (amended): `decode_packet` keys on the first zero byte at an index in
`head..buf.len()` — the scan is bounded by the backing buffer's length, not
by `tail`.  If no byte of that whole range is zero (and `head ≠ tail`) it
returns `Ok(None)` with the state unchanged; with first zero at `z` it
decodes the span `[head, z)` and sets `head := z + 1`, even when `z ≥ tail`
or when the inner decode errors. -/
theorem spec_c6 (r : Cobs.Reader) (cap : Nat) (hne : r.head ≠ r.tail) :
    ((∀ i, r.head ≤ i → i < r.buf.length → r.buf.getD i 1 ≠ 0) →
      r.decode_packet cap = (.ok none, r)) ∧
    (∀ z, r.head ≤ z → z < r.buf.length → r.buf.getD z 1 = 0 →
      (∀ i, r.head ≤ i → i < z → r.buf.getD i 1 ≠ 0) →
      r.decode_packet cap =
        match Cobs.decode ((r.buf.drop r.head).take (z - r.head)) cap with
        | .ok out => (.ok (some out), { r with head := z + 1 })
        | .error e => (.error e, { r with head := z + 1 })) := by
  constructor
  · intro h
    rw [Cobs.Reader.decode_packet, if_neg hne, Cobs.next_null_eq_none r h]
  · intro z hz1 hz2 hz0 hfirst
    rw [Cobs.Reader.decode_packet, if_neg hne, Cobs.next_null_eq_some r z hz1 hz2 hz0 hfirst]

theorem spec_c6_witness :
    ((⟨[1, 2], 0, 2⟩ : Cobs.Reader).head ≠ (⟨[1, 2], 0, 2⟩ : Cobs.Reader).tail) ∧
    Cobs.Reader.decode_packet ⟨[1, 2], 0, 2⟩ 8 = (.ok none, ⟨[1, 2], 0, 2⟩) :=
  ⟨by decide,
    (spec_c6 ⟨[1, 2], 0, 2⟩ 8 (by decide)).1 (by
      intro i _ hi
      have hi2 : i < 2 := hi
      interval_cases i <;> decide)⟩

/-- C6 counterexample: with `buf = [1, 0]`, `head = 0`, `tail = 1` the
buffered bytes `[head, tail)` = `[1]` contain no zero, yet `decode_packet`
finds the stale zero at index `1` — beyond `tail` — decodes `[1]` to the
empty frame and advances `head` to `2`, past `tail`, instead of returning
`Ok(None)` with the state unchanged. -/
theorem spec_c6_counterexample :
    (∀ i, i < 1 → ([1, 0] : List Nat).getD i 1 ≠ 0) ∧
    Cobs.Reader.decode_packet ⟨[1, 0], 0, 1⟩ 8 = (.ok (some []), ⟨[1, 0], 2, 1⟩) := by
  constructor
  · decide
  · simp +decide [Cobs.Reader.decode_packet, Cobs.Reader.next_null, Cobs.decode,
      Cobs.decodeLoop, List.range', List.find?]

/-- C7 (amended): the asserted mutators of `buffer::Buffer` and the
`cobs::Reader` operations `compact`, plus `extend` *when the new bytes fit
the backing buffer*, preserve `head ≤ tail ≤ capacity`.  Unrestricted
`Reader::extend` (which has no bounds check) does not, and `decode_packet`
can push `head` beyond `tail`. -/
theorem spec_c7 :
    (∀ (b : Cobs.Buffer) (v : Nat) (b' : Cobs.Buffer),
      b.Inv → Cobs.Buffer.extend b v = some b' → b'.Inv) ∧
    (∀ (b : Cobs.Buffer) (v : Nat) (b' : Cobs.Buffer),
      b.Inv → Cobs.Buffer.push b v = some b' → b'.Inv) ∧
    (∀ (b : Cobs.Buffer) (v : Nat) (b' : Cobs.Buffer),
      b.Inv → Cobs.Buffer.advance b v = some b' → b'.Inv) ∧
    (∀ b : Cobs.Buffer, b.Inv → (Cobs.Buffer.compact b).Inv) ∧
    (∀ r : Cobs.Reader, r.Inv → (Cobs.Reader.compact r).Inv) ∧
    (∀ (r : Cobs.Reader) (len : Nat), r.Inv → r.tail + len ≤ r.buf.length →
      (Cobs.Reader.extend r len).Inv) := by
  refine ⟨?_, ?_, ?_, ?_, ?_, ?_⟩
  · intro b v b' hInv h
    simp only [Cobs.Buffer.extend] at h
    split_ifs at h with hc
    simp only [Option.some.injEq] at h
    subst h
    simp only [Cobs.Buffer.Inv] at hInv ⊢
    omega
  · intro b v b' hInv h
    simp only [Cobs.Buffer.push] at h
    split_ifs at h with hc
    simp only [Option.some.injEq] at h
    subst h
    simp only [Cobs.Buffer.Inv, List.length_set] at hInv ⊢
    omega
  · intro b v b' hInv h
    simp only [Cobs.Buffer.advance] at h
    split_ifs at h with hc
    simp only [Option.some.injEq] at h
    subst h
    simp only [Cobs.Buffer.Inv] at hInv ⊢
    omega
  · intro b hInv
    rw [Cobs.Buffer.compact]
    split_ifs with hc
    · simp only [Cobs.Buffer.Inv] at hInv ⊢
      omega
    · exact hInv
  · intro r hInv
    rw [Cobs.Reader.compact]
    split_ifs with hc
    · simp only [Cobs.Reader.Inv] at hInv ⊢
      omega
    · exact hInv
  · intro r len hInv hlen
    simp only [Cobs.Reader.extend, Cobs.Reader.Inv] at hInv ⊢
    omega

theorem spec_c7_witness :
    Cobs.Buffer.Inv ⟨[0, 0], 0, 0⟩ ∧
    Cobs.Buffer.extend ⟨[0, 0], 0, 0⟩ 1 = some ⟨[0, 0], 0, 1⟩ ∧
    Cobs.Buffer.Inv ⟨[0, 0], 0, 1⟩ :=
  ⟨by decide, rfl, spec_c7.1 ⟨[0, 0], 0, 0⟩ 1 ⟨[0, 0], 0, 1⟩ (by decide) rfl⟩

/-- C7 counterexample: `cobs::Reader::extend` has no bounds check, so from
the valid empty state it advances `tail` past the backing buffer's length,
breaking `tail ≤ capacity`. -/
theorem spec_c7_counterexample :
    Cobs.Reader.Inv ⟨[], 0, 0⟩ ∧ Cobs.Reader.extend ⟨[], 0, 0⟩ 1 = ⟨[], 0, 1⟩ ∧
    ¬ Cobs.Reader.Inv ⟨[], 0, 1⟩ :=
  ⟨by decide, rfl, by decide⟩

/-- C8: `tlv` round-trip for every length-field width N in {8, 16, 32}.
Writing a record with `write_tlvN` (tag below `2 ^ 32`, value length within
the N-bit field, enough capacity) appends exactly the varint tag, the N-bit
big-endian length and the value after any previously written records, and
`read_tlvN` starting at any offset holding such a record (with arbitrary
bytes after it) returns exactly `(tag, value)` and stops at the record
boundary — so consecutively written records are read back in order.
(`write_tlv32` goes through the panic-capable `write_u32`, hence the `some`:
with four or more free bytes the panic is not reached.) -/
theorem spec_c8 :
    (∀ (tag : Nat), tag < 2 ^ 32 → ∀ (value : List Nat), value.length < 2 ^ 8 →
      ∀ (cap : Nat) (pre : List Nat),
        pre.length + ((Leb128.uleb tag).length + (1 + value.length)) ≤ cap →
      ∀ (scratch : Nat), value.length ≤ scratch → ∀ (rest : List Nat),
      Tlv.Writer.write_tlv8 ⟨cap, pre⟩ tag value =
        (.ok ((Leb128.uleb tag).length + (1 + value.length)),
          ⟨cap, pre ++ (Leb128.uleb tag ++ value.length :: value)⟩) ∧
      Tlv.Reader.read_tlv8
          ⟨pre ++ (Leb128.uleb tag ++ value.length :: (value ++ rest)),
            pre.length⟩ scratch =
        some (.ok (some (tag, value)),
          ⟨pre ++ (Leb128.uleb tag ++ value.length :: (value ++ rest)),
            pre.length + ((Leb128.uleb tag).length + 1 + value.length)⟩)) ∧
    (∀ (tag : Nat), tag < 2 ^ 32 → ∀ (value : List Nat), value.length < 2 ^ 16 →
      ∀ (cap : Nat) (pre : List Nat),
        pre.length + ((Leb128.uleb tag).length + (2 + value.length)) ≤ cap →
      ∀ (scratch : Nat), value.length ≤ scratch → ∀ (rest : List Nat),
      Tlv.Writer.write_tlv16 ⟨cap, pre⟩ tag value =
        (.ok ((Leb128.uleb tag).length + (2 + value.length)),
          ⟨cap, pre ++ (Leb128.uleb tag ++ value.length >>> 8 % 256 ::
            value.length % 256 :: value)⟩) ∧
      Tlv.Reader.read_tlv16
          ⟨pre ++ (Leb128.uleb tag ++ value.length >>> 8 % 256 :: value.length % 256 ::
            (value ++ rest)), pre.length⟩ scratch =
        some (.ok (some (tag, value)),
          ⟨pre ++ (Leb128.uleb tag ++ value.length >>> 8 % 256 :: value.length % 256 ::
            (value ++ rest)),
            pre.length + ((Leb128.uleb tag).length + 2 + value.length)⟩)) ∧
    (∀ (tag : Nat), tag < 2 ^ 32 → ∀ (value : List Nat), value.length < 2 ^ 32 →
      ∀ (cap : Nat) (pre : List Nat),
        pre.length + ((Leb128.uleb tag).length + (4 + value.length)) ≤ cap →
      ∀ (scratch : Nat), value.length ≤ scratch → ∀ (rest : List Nat),
      Tlv.Writer.write_tlv32 ⟨cap, pre⟩ tag value =
        some (.ok ((Leb128.uleb tag).length + (4 + value.length)),
          ⟨cap, pre ++ (Leb128.uleb tag ++ value.length >>> 24 % 256 ::
            value.length >>> 16 % 256 :: value.length >>> 8 % 256 ::
            value.length % 256 :: value)⟩) ∧
      Tlv.Reader.read_tlv32
          ⟨pre ++ (Leb128.uleb tag ++ value.length >>> 24 % 256 ::
            value.length >>> 16 % 256 :: value.length >>> 8 % 256 ::
            value.length % 256 :: (value ++ rest)), pre.length⟩ scratch =
        some (.ok (some (tag, value)),
          ⟨pre ++ (Leb128.uleb tag ++ value.length >>> 24 % 256 ::
            value.length >>> 16 % 256 :: value.length >>> 8 % 256 ::
            value.length % 256 :: (value ++ rest)),
            pre.length + ((Leb128.uleb tag).length + 4 + value.length)⟩)) := by
  refine ⟨?_, ?_, ?_⟩
  · intro tag htag value hlen cap pre hcap scratch hscratch rest
    exact ⟨Tlv.write_tlv8_ok cap pre value tag (by omega) hcap,
      Tlv.read_tlv8_ok pre rest value tag htag scratch hscratch⟩
  · intro tag htag value hlen cap pre hcap scratch hscratch rest
    exact ⟨Tlv.write_tlv16_ok cap pre value tag hlen hcap,
      Tlv.read_tlv16_ok pre rest value tag htag hlen scratch hscratch⟩
  · intro tag htag value hlen cap pre hcap scratch hscratch rest
    exact ⟨Tlv.write_tlv32_ok cap pre value tag hlen hcap,
      Tlv.read_tlv32_ok pre rest value tag htag hlen scratch hscratch⟩

theorem spec_c8_witness :
    (1 : Nat) < 2 ^ 32 ∧ ([65, 66] : List Nat).length < 2 ^ 8 ∧
    Tlv.Writer.write_tlv8 ⟨20, []⟩ 1 [65, 66] =
      (.ok ((Leb128.uleb 1).length + (1 + 2)),
        ⟨20, [] ++ (Leb128.uleb 1 ++ 2 :: [65, 66])⟩) ∧
    Tlv.Writer.write_tlv16 ⟨20, []⟩ 1 [65, 66] =
      (.ok ((Leb128.uleb 1).length + (2 + 2)),
        ⟨20, [] ++ (Leb128.uleb 1 ++ (2 : Nat) >>> 8 % 256 :: 2 % 256 :: [65, 66])⟩) ∧
    Tlv.Writer.write_tlv32 ⟨20, []⟩ 1 [65, 66] =
      some (.ok ((Leb128.uleb 1).length + (4 + 2)),
        ⟨20, [] ++ (Leb128.uleb 1 ++ (2 : Nat) >>> 24 % 256 :: (2 : Nat) >>> 16 % 256 ::
          (2 : Nat) >>> 8 % 256 :: 2 % 256 :: [65, 66])⟩) := by
  refine ⟨by norm_num, by norm_num, ?_, ?_, ?_⟩
  · exact (spec_c8.1 1 (by norm_num) [65, 66] (by norm_num) 20 []
      (by simp [Leb128.uleb]) 2 (by norm_num) []).1
  · exact (spec_c8.2.1 1 (by norm_num) [65, 66] (by norm_num) 20 []
      (by simp [Leb128.uleb]) 2 (by norm_num) []).1
  · exact (spec_c8.2.2 1 (by norm_num) [65, 66] (by norm_num) 20 []
      (by simp [Leb128.uleb]) 2 (by norm_num) []).1

/-- C9 (amended): `cobs::Writer::encode_packet` leaves its position
unchanged on every error, and the single-write `tlv` operations
(`write_u8`, `write_u16`, `write`) check capacity before mutating; but the
compound `write_lvN` writes are *not* atomic — the length byte can be
committed before the value write fails (see the counterexample). -/
theorem spec_c9 :
    (∀ (w : Cobs.Writer) (src : List Nat) (e : Cobs.Error) (w' : Cobs.Writer),
      w.encode_packet src = (.error e, w') → w'.pos = w.pos) ∧
    (∀ (w : Tlv.Writer) (v : Nat) (e : Tlv.Error) (w' : Tlv.Writer),
      w.write_u8 v = (.error e, w') → w' = w) ∧
    (∀ (w : Tlv.Writer) (v : Nat) (e : Tlv.Error) (w' : Tlv.Writer),
      w.write_u16 v = (.error e, w') → w' = w) ∧
    (∀ (w : Tlv.Writer) (value : List Nat) (e : Tlv.Error) (w' : Tlv.Writer),
      w.write value = (.error e, w') → w' = w) := by
  refine ⟨?_, ?_, ?_, ?_⟩
  · intro w src e w' h
    rcases henc : Cobs.encode src (w.buf.drop w.pos) with e' | ⟨n, sub⟩
    · simp only [Cobs.Writer.encode_packet, henc] at h
      simp only [Prod.mk.injEq] at h
      rw [← h.2]
    · simp only [Cobs.Writer.encode_packet, henc] at h
      split_ifs at h with hc
      · simp only [Prod.mk.injEq] at h
        rw [← h.2]
      · simp only [Prod.mk.injEq] at h
        exact absurd h.1 (by simp)
  · intro w v e w' h
    rw [Tlv.Writer.write_u8] at h
    split_ifs at h with hc
    · simp only [Prod.mk.injEq] at h
      exact h.2.symm
    · simp at h
  · intro w v e w' h
    rw [Tlv.Writer.write_u16] at h
    split_ifs at h with hc
    · simp only [Prod.mk.injEq] at h
      exact h.2.symm
    · simp at h
  · intro w value e w' h
    rw [Tlv.Writer.write] at h
    split_ifs at h with hc
    · simp only [Prod.mk.injEq] at h
      exact h.2.symm
    · simp at h

theorem spec_c9_witness :
    Cobs.Writer.encode_packet ⟨[], 0⟩ [1] = (.error .DestTooShort, ⟨[], 0⟩) ∧
    Cobs.Writer.pos ⟨[], 0⟩ = Cobs.Writer.pos ⟨[], 0⟩ :=
  ⟨rfl, spec_c9.1 ⟨[], 0⟩ [1] .DestTooShort ⟨[], 0⟩ rfl⟩

/-- C9 counterexample: `tlv::Writer::write_lv8` into a one-byte destination
writes the length byte, then fails the value write — it returns
`BufferTooShort` with the position advanced from `0` to `1`, violating the
claimed "detected before any partial write". -/
theorem spec_c9_counterexample :
    Tlv.Writer.write_lv8 ⟨1, []⟩ [7] = (.error .BufferTooShort, ⟨1, [1]⟩) ∧
    Tlv.Writer.pos ⟨1, [1]⟩ = 1 ∧ Tlv.Writer.pos ⟨1, []⟩ = 0 :=
  ⟨rfl, rfl, rfl⟩

/-- C10: a successful `cobs::encode` never places a zero among the `n` bytes
it reports written (the terminator is the streaming Writer's job). -/
theorem spec_c10 (src dst : List Nat) (n : Nat) (dstF : List Nat)
    (henc : Cobs.encode src dst = .ok (n, dstF)) :
    ∀ i, i < n → dstF.getD i 1 ≠ 0 := by
  obtain ⟨hn, hle, hlen, htake⟩ := Cobs.encode_ok henc
  intro i hi
  have hval : dstF.getD i 1 = (Cobs.cobsSpec src).getD i 1 := by
    rw [← htake, List.getD_eq_getElem?_getD, List.getD_eq_getElem?_getD,
      List.getElem?_take, if_pos hi]
  rw [hval]
  have hilen : i < (Cobs.cobsSpec src).length := by omega
  rw [List.getD_eq_getElem?_getD, List.getElem?_eq_getElem hilen]
  simp only [Option.getD_some]
  exact Cobs.cobsSpec_ne_zero src _ (List.getElem_mem hilen)

theorem spec_c10_witness :
    Cobs.encode [1] [0, 0] = .ok (2, [2, 1]) ∧
    ∀ i, i < 2 → ([2, 1] : List Nat).getD i 1 ≠ 0 :=
  ⟨rfl, spec_c10 [1] [0, 0] 2 [2, 1] rfl⟩
